import Mathlib

/-!
Verification of `asn1ate/sema.py`: dependency-ordering algorithms
(`topological_sort`, `dependency_sort`), the module facade
(`resolve_type_decl`), and construction/rendering of selected sema nodes
(`ValueListType`, `TaggedType`, `CollectionType`, `SizeConstraint`).

Python dicts are modelled as insertion-ordered association lists:
assignment `d[k] = v` overwrites in place when the key is present and
appends otherwise, matching CPython's ordered-dict semantics.
Python sets (the result of `Assignment.references()`) are modelled as
duplicate-free lists recording the set's iteration order.
-/

namespace Asn1ate

/-- An assignment as consumed by the sort functions: `reference_name()`
is modelled by `name` and `references()` by `refs` (a Python set,
modelled as a list in iteration order). -/
structure Assignment where
  name : String
  refs : List String
deriving DecidableEq, Repr

/-! ### Python dict primitives over association lists -/

/-- `d[k]` lookup: first entry with the key (keys are unique in a real dict). -/
def lookupD {α β : Type} [DecidableEq α] : List (α × β) → α → Option β
  | [], _ => none
  | e :: es, k => if e.1 = k then some e.2 else lookupD es k

/-- `k in d`. -/
def containsKey {α β : Type} [DecidableEq α] (d : List (α × β)) (k : α) : Bool :=
  (lookupD d k).isSome

/-- `d.pop(k, default)`: remove the entry with key `k`, if present. -/
def eraseKey {α β : Type} [DecidableEq α] : List (α × β) → α → List (α × β)
  | [], _ => []
  | e :: es, k => if e.1 = k then es else e :: eraseKey es k

/-- `d[k] = v`: overwrite in place when present, append otherwise. -/
def dictInsert {α β : Type} [DecidableEq α] (d : List (α × β)) (k : α) (v : β) :
    List (α × β) :=
  if containsKey d k then d.map (fun e => if e.1 = k then (k, v) else e)
  else d ++ [(k, v)]

/-- The keys of a dict, in insertion order (`d.keys()`). -/
def keysD {α β : Type} (d : List (α × β)) : List α :=
  d.map Prod.fst

/-! ### `topological_sort` (sema.py lines 41-84) -/

/-- The name-to-references graph built by
`dict((a.reference_name(), a.references()) for a in assignments)`. -/
def buildGraph (l : List Assignment) : List (String × List String) :=
  l.foldl (fun g a => dictInsert g a.name a.refs) []

/-- `has_predecessor(node)`: some value list of the graph contains `node`. -/
def hasPredecessor (graph : List (String × List String)) (node : String) : Bool :=
  graph.any (fun entry => entry.2.contains node)

/-- Size measure for the loop's termination: one unit per entry plus one
per successor occurrence. -/
def graphSize (graph : List (String × List String)) : Nat :=
  (graph.map (fun e => e.2.length + 1)).sum

theorem lookupD_eq_none_eraseKey {α β : Type} [DecidableEq α]
    (d : List (α × β)) (k : α) (h : lookupD d k = none) : eraseKey d k = d := by
  induction d with
  | nil => rfl
  | cons e es ih =>
    by_cases hek : e.1 = k
    · simp [lookupD, hek] at h
    · simp only [lookupD, hek, if_neg] at h
      simp [eraseKey, hek, ih h]

theorem graphSize_eraseKey (d : List (String × List String)) (k : String)
    (v : List String) (h : lookupD d k = some v) :
    graphSize (eraseKey d k) + v.length + 1 = graphSize d := by
  induction d with
  | nil => simp [lookupD] at h
  | cons e es ih =>
    by_cases hek : e.1 = k
    · rw [lookupD, if_pos hek, Option.some.injEq] at h
      rw [eraseKey, if_pos hek]
      subst h
      simp only [graphSize, List.map_cons, List.sum_cons]
      omega
    · rw [lookupD, if_neg hek] at h
      rw [eraseKey, if_neg hek]
      have := ih h
      simp only [graphSize, List.map_cons, List.sum_cons] at this ⊢
      omega

/-- The `while roots:` loop. The Python `roots` list pops from and
extends at its tail; we keep it reversed so that the head is the next
root to pop, and `roots.extend(it)` becomes prepending `it` reversed.
`topological_order.insert(0, root)` is `root :: order`. -/
def sortLoop (graph : List (String × List String)) (roots : List String)
    (order : List String) : List (String × List String) × List String :=
  match roots with
  | [] => (graph, order)
  | root :: rest =>
    let succs := (lookupD graph root).getD []
    let graph' := eraseKey graph root
    let newRoots := (succs.filter (fun s => !hasPredecessor graph' s)).reverse
    sortLoop graph' (newRoots ++ rest) (root :: order)
termination_by graphSize graph + roots.length
decreasing_by
  simp only [List.length_append, List.length_reverse, List.length_cons]
  rcases h : lookupD graph root with _ | v
  · rw [lookupD_eq_none_eraseKey graph root h]
    simp only [h, Option.getD_none, List.filter_nil, List.length_nil]
    omega
  · simp only [h, Option.getD_some]
    have hsz := graphSize_eraseKey graph root v h
    have hle : (v.filter (fun s => !hasPredecessor (eraseKey graph root) s)).length
        ≤ v.length := List.length_filter_le _ _
    omega

/-- Fuel-indexed copy of `sortLoop`, used to evaluate the loop on
concrete inputs by structural recursion. -/
def sortLoopFuel : Nat → List (String × List String) → List String → List String →
    List (String × List String) × List String
  | 0, graph, _, order => (graph, order)
  | _ + 1, graph, [], order => (graph, order)
  | fuel + 1, graph, root :: rest, order =>
    let succs := (lookupD graph root).getD []
    let graph' := eraseKey graph root
    let newRoots := (succs.filter (fun s => !hasPredecessor graph' s)).reverse
    sortLoopFuel fuel graph' (newRoots ++ rest) (root :: order)

theorem sortLoop_measure_lt (graph : List (String × List String))
    (root : String) (rest : List String) :
    graphSize (eraseKey graph root) +
      ((((lookupD graph root).getD []).filter
        (fun s => !hasPredecessor (eraseKey graph root) s)).reverse ++ rest).length <
    graphSize graph + (root :: rest).length := by
  simp only [List.length_append, List.length_reverse, List.length_cons]
  rcases h : lookupD graph root with _ | v
  · rw [lookupD_eq_none_eraseKey graph root h]
    simp only [h, Option.getD_none, List.filter_nil, List.length_nil]
    omega
  · simp only [h, Option.getD_some]
    have hsz := graphSize_eraseKey graph root v h
    have hle : (v.filter (fun s => !hasPredecessor (eraseKey graph root) s)).length
        ≤ v.length := List.length_filter_le _ _
    omega

theorem sortLoop_eq_fuel (fuel : Nat) :
    ∀ (graph : List (String × List String)) (roots order : List String),
    graphSize graph + roots.length ≤ fuel →
    sortLoop graph roots order = sortLoopFuel fuel graph roots order := by
  induction fuel with
  | zero =>
    intro graph roots order h
    match roots with
    | [] => rw [sortLoop, sortLoopFuel]
    | root :: rest => simp at h
  | succ fuel ih =>
    intro graph roots order h
    match roots with
    | [] => rw [sortLoop, sortLoopFuel]
    | root :: rest =>
      rw [sortLoop, sortLoopFuel]
      exact ih _ _ _ (by
        have := sortLoop_measure_lt graph root rest
        omega)

/-- The initial root candidates, reversed to match `sortLoop`'s
representation. -/
def initialRoots (graph : List (String × List String)) : List String :=
  ((keysD graph).filter (fun n => !hasPredecessor graph n)).reverse

/-- The leftover graph once root candidates are exhausted; nonempty
exactly when the cycle error fires. -/
def sortResidue (l : List Assignment) : List (String × List String) :=
  (sortLoop (buildGraph l) (initialRoots (buildGraph l)) []).1

/-- The final `topological_order` list of names. -/
def sortOrder (l : List Assignment) : List String :=
  (sortLoop (buildGraph l) (initialRoots (buildGraph l)) []).2

/-- The comparison `key=lambda a: topological_order.index(a.reference_name())`. -/
def orderLe (order : List String) : Assignment → Assignment → Bool :=
  fun a b => order.indexOf a.name ≤ order.indexOf b.name

/-- `sorted(assignments, key=lambda a: topological_order.index(...))`:
Python's sort is stable, so it is the stable merge sort on the key. -/
def sortedByOrder (l : List Assignment) (order : List String) : List Assignment :=
  l.mergeSort (orderLe order)

/-- `topological_sort` (sema.py lines 41-84): errors with the leftover
graph when a cycle remains, otherwise returns the assignments sorted in
topological order of their names. -/
def topological_sort (l : List Assignment) :
    Except (List (String × List String)) (List Assignment) :=
  if sortResidue l = [] then .ok (sortedByOrder l (sortOrder l))
  else .error (sortResidue l)

/-! ### Association list lemmas -/

theorem lookupD_mem {α β : Type} [DecidableEq α] {d : List (α × β)} {k : α} {v : β}
    (h : lookupD d k = some v) : (k, v) ∈ d := by
  induction d with
  | nil => simp [lookupD] at h
  | cons e es ih =>
    by_cases hek : e.1 = k
    · rw [lookupD, if_pos hek, Option.some.injEq] at h
      subst h
      subst hek
      exact List.mem_cons_self _ _
    · rw [lookupD, if_neg hek] at h
      exact List.mem_cons_of_mem _ (ih h)

theorem lookupD_eraseKey_ne {α β : Type} [DecidableEq α] (d : List (α × β))
    {k j : α} (h : k ≠ j) : lookupD (eraseKey d j) k = lookupD d k := by
  induction d with
  | nil => rfl
  | cons e es ih =>
    by_cases hej : e.1 = j
    · rw [eraseKey, if_pos hej, lookupD, if_neg (by rw [hej]; exact fun hh => h hh.symm)]
    · rw [eraseKey, if_neg hej, lookupD, lookupD]
      by_cases hek : e.1 = k
      · rw [if_pos hek, if_pos hek]
      · rw [if_neg hek, if_neg hek, ih]

theorem eraseKey_sublist {α β : Type} [DecidableEq α] (d : List (α × β)) (k : α) :
    List.Sublist (eraseKey d k) d := by
  induction d with
  | nil => exact List.Sublist.refl _
  | cons e es ih =>
    by_cases hek : e.1 = k
    · rw [eraseKey, if_pos hek]
      exact List.sublist_cons_self _ _
    · rw [eraseKey, if_neg hek]
      exact List.Sublist.cons₂ _ ih

theorem hasPredecessor_mono {g : List (String × List String)} {k : String}
    {n : String} (h : hasPredecessor (eraseKey g k) n = true) :
    hasPredecessor g n = true := by
  rw [hasPredecessor, List.any_eq_true] at h ⊢
  obtain ⟨e, he, hn⟩ := h
  exact ⟨e, (eraseKey_sublist g k).subset he, hn⟩

theorem hasPredecessor_of_lookup {g : List (String × List String)} {k : String}
    {v : List String} {n : String} (h : lookupD g k = some v) (hn : n ∈ v) :
    hasPredecessor g n = true := by
  rw [hasPredecessor, List.any_eq_true]
  exact ⟨(k, v), lookupD_mem h, by simpa using hn⟩

theorem keysD_eraseKey (d : List (String × List String)) (k : String) :
    keysD (eraseKey d k) = (keysD d).erase k := by
  induction d with
  | nil => rfl
  | cons e es ih =>
    by_cases hek : e.1 = k
    · subst hek
      simp [eraseKey, keysD, List.erase_cons]
    · simp [eraseKey, keysD, hek, List.erase_cons]
      exact ih

theorem lookupD_eq_none_iff {α β : Type} [DecidableEq α] (d : List (α × β)) (k : α) :
    lookupD d k = none ↔ k ∉ keysD d := by
  induction d with
  | nil => simp [lookupD, keysD]
  | cons e es ih =>
    by_cases hek : e.1 = k
    · simp [lookupD, hek, keysD]
    · simp only [lookupD, if_neg hek, keysD, List.map_cons, List.mem_cons, not_or, ih]
      constructor
      · intro h
        exact ⟨fun hh => hek hh.symm, h⟩
      · exact And.right

theorem mem_keysD_iff_lookup {α β : Type} [DecidableEq α] (d : List (α × β)) (k : α) :
    k ∈ keysD d ↔ ∃ v, lookupD d k = some v := by
  constructor
  · intro h
    rcases hv : lookupD d k with _ | v
    · exact absurd ((lookupD_eq_none_iff d k).1 hv) (fun hh => hh h)
    · exact ⟨v, rfl⟩
  · rintro ⟨v, hv⟩
    by_contra hk
    rw [(lookupD_eq_none_iff d k).2 hk] at hv
    cases hv

/-! ### Invariants of the `topological_sort` loop -/

theorem sortLoop_nil (g : List (String × List String)) (o : List String) :
    sortLoop g [] o = (g, o) := by
  rw [sortLoop]

theorem sortLoop_cons (g : List (String × List String)) (root : String)
    (rest o : List String) :
    sortLoop g (root :: rest) o =
      sortLoop (eraseKey g root)
        ((((lookupD g root).getD []).filter
          (fun s => !hasPredecessor (eraseKey g root) s)).reverse ++ rest)
        (root :: o) := by
  rw [sortLoop]

/-- Core safety invariant: any name that still has a predecessor in the
graph is neither a pending root candidate nor already output. -/
def NoPredIn (g : List (String × List String)) (r o : List String) : Prop :=
  ∀ n, hasPredecessor g n = true → n ∉ r ∧ n ∉ o

theorem noPredIn_step {g : List (String × List String)} {root : String}
    {rest o : List String} (h : NoPredIn g (root :: rest) o) :
    NoPredIn (eraseKey g root)
      ((((lookupD g root).getD []).filter
        (fun s => !hasPredecessor (eraseKey g root) s)).reverse ++ rest)
      (root :: o) := by
  intro n hn
  have hg : hasPredecessor g n = true := hasPredecessor_mono hn
  obtain ⟨hnr, hno⟩ := h n hg
  refine ⟨?_, ?_⟩
  · intro hmem
    rcases List.mem_append.1 hmem with hmem | hmem
    · have := List.of_mem_filter (List.mem_reverse.1 hmem)
      rw [hn] at this
      exact absurd this (by simp)
    · exact hnr (List.mem_cons_of_mem _ hmem)
  · intro hmem
    rcases List.mem_cons.1 hmem with hmem | hmem
    · subst hmem
      exact hnr (List.mem_cons_self _ _)
    · exact hno hmem

/-- Names that only have predecessors among themselves are never removed
from the graph: the loop cannot touch any member of a cycle. -/
theorem sortLoop_keeps (S : List String) :
    ∀ g r o, NoPredIn g r o →
    (∀ k ∈ S, ∃ k' v, k' ∈ S ∧ lookupD g k' = some v ∧ k ∈ v) →
    (∀ k ∈ S, ∃ v, lookupD g k = some v) →
    ∀ k ∈ S, ∃ v, lookupD (sortLoop g r o).1 k = some v := by
  intro g r o
  induction g, r, o using sortLoop.induct with
  | case1 g o =>
    intro _ _ hl k hk
    rw [sortLoop_nil]
    exact hl k hk
  | case2 g o root rest succs graph' newRoots ih =>
    simp only at succs graph' newRoots ih
    intro hInv hpred hl
    have hroot : root ∉ S := by
      intro hroot
      obtain ⟨k', v, _, hk'v, hkv⟩ := hpred root hroot
      exact (hInv root (hasPredecessor_of_lookup hk'v hkv)).1 (List.mem_cons_self _ _)
    have hne : ∀ k ∈ S, k ≠ root := fun k hk hkr => hroot (hkr ▸ hk)
    rw [sortLoop_cons]
    exact ih (noPredIn_step hInv)
      (fun k hk => by
        obtain ⟨k', v, hk', hk'v, hkv⟩ := hpred k hk
        exact ⟨k', v, hk', by rw [lookupD_eraseKey_ne _ (hne k' hk')]; exact hk'v, hkv⟩)
      (fun k hk => by
        obtain ⟨v, hv⟩ := hl k hk
        exact ⟨v, by rw [lookupD_eraseKey_ne _ (hne k hk)]; exact hv⟩)

/-- Full invariant of the `while roots:` loop: `r` is the pending root
list, `o` the (reversed-pop-order) output so far. -/
structure KahnInv (g : List (String × List String)) (r o : List String) : Prop where
  nopred : NoPredIn g r o
  nd_ro : (r ++ o).Nodup
  keys_o : ∀ k ∈ keysD g, k ∉ o
  nd_keys : (keysD g).Nodup
  nd_vals : ∀ e ∈ g, e.2.Nodup

theorem kahnInv_step {g : List (String × List String)} {root : String}
    {rest o : List String} (inv : KahnInv g (root :: rest) o) :
    KahnInv (eraseKey g root)
      ((((lookupD g root).getD []).filter
        (fun s => !hasPredecessor (eraseKey g root) s)).reverse ++ rest)
      (root :: o) := by
  have hpred_new : ∀ s ∈ (((lookupD g root).getD []).filter
      (fun s => !hasPredecessor (eraseKey g root) s)).reverse,
      hasPredecessor g s = true := by
    intro s hs
    have hsv := List.mem_of_mem_filter (List.mem_reverse.1 hs)
    rcases hlk : lookupD g root with _ | v
    · rw [hlk] at hsv
      simp at hsv
    · rw [hlk] at hsv
      exact hasPredecessor_of_lookup hlk (by simpa using hsv)
  have hnd_new : (((lookupD g root).getD []).filter
      (fun s => !hasPredecessor (eraseKey g root) s)).reverse.Nodup := by
    rw [List.nodup_reverse]
    rcases hlk : lookupD g root with _ | v
    · simp
    · exact (inv.nd_vals (root, v) (lookupD_mem hlk)).filter _
  have hold : (root :: (rest ++ o)).Nodup := by
    have := inv.nd_ro
    rwa [List.cons_append] at this
  refine ⟨noPredIn_step inv.nopred, ?_, ?_, ?_, ?_⟩
  · -- ((newRoots ++ rest) ++ root :: o).Nodup
    rw [List.append_assoc, List.nodup_append]
    refine ⟨hnd_new, ?_, ?_⟩
    · exact (List.perm_middle.nodup_iff).2 hold
    · intro s hs hs'
      have hgs := hpred_new s hs
      obtain ⟨hs₁, hs₂⟩ := inv.nopred s hgs
      rcases List.mem_append.1 hs' with h | h
      · exact hs₁ (List.mem_cons_of_mem _ h)
      · rcases List.mem_cons.1 h with h | h
        · exact hs₁ (h ▸ List.mem_cons_self _ _)
        · exact hs₂ h
  · intro k hk
    rw [keysD_eraseKey] at hk
    have hkk := (inv.nd_keys.mem_erase_iff).1 hk
    intro hko
    rcases List.mem_cons.1 hko with h | h
    · exact hkk.1 h
    · exact inv.keys_o k hkk.2 h
  · rw [keysD_eraseKey]
    exact inv.nd_keys.erase _
  · intro e he
    exact inv.nd_vals e ((eraseKey_sublist g root).subset he)

/-- Main loop lemma: the produced order is duplicate-free, extends the
accumulator at the front with exactly the keys it removed, shrinks the
graph, and — when the graph is fully consumed — places every surviving
referenced key strictly before its referrer. -/
theorem sortLoop_main : ∀ g r o, KahnInv g r o →
    (sortLoop g r o).2.Nodup ∧
    ∃ Δ, (sortLoop g r o).2 = Δ ++ o ∧
      (∀ k ∈ keysD g, k ∈ keysD (sortLoop g r o).1 ∨ k ∈ Δ) ∧
      (∀ k v, lookupD (sortLoop g r o).1 k = some v → lookupD g k = some v) ∧
      ((sortLoop g r o).1 = [] → ∀ k v s, lookupD g k = some v → s ∈ v → s ≠ k →
        (∃ w, lookupD g s = some w) →
        (sortLoop g r o).2.indexOf s < (sortLoop g r o).2.indexOf k) := by
  intro g r o
  induction g, r, o using sortLoop.induct with
  | case1 g o =>
    intro inv
    rw [sortLoop_nil]
    refine ⟨by simpa using inv.nd_ro, [], (List.nil_append o).symm,
      fun k hk => Or.inl hk, fun k v hv => hv, ?_⟩
    rintro rfl k v s hkv
    simp [lookupD] at hkv
  | case2 g o root rest succs graph' newRoots ih =>
    intro inv
    have inv' : KahnInv graph' (newRoots ++ rest) (root :: o) := kahnInv_step inv
    obtain ⟨hnd, Δ₁, hΔeq, hkeys, hlk, horder⟩ := ih inv'
    rw [sortLoop_cons]
    refine ⟨hnd, Δ₁ ++ [root], ?_, ?_, ?_, ?_⟩
    · rw [hΔeq, List.append_assoc, List.singleton_append]
    · intro k hk
      by_cases hkr : k = root
      · have hkr2 := hkr.symm
        subst hkr2
        exact Or.inr (List.mem_append.2 (Or.inr (List.mem_singleton.2 rfl)))
      · have hk' : k ∈ keysD graph' := by
          rw [keysD_eraseKey]
          exact (List.mem_erase_of_ne hkr).2 hk
        rcases hkeys k hk' with h | h
        · exact Or.inl h
        · exact Or.inr (List.mem_append.2 (Or.inl h))
    · intro k v hv
      have h' := hlk k v hv
      by_cases hkr : k = root
      · have hkr2 := hkr.symm
        subst hkr2
        exfalso
        have : root ∈ keysD graph' := (mem_keysD_iff_lookup _ _).2 ⟨v, h'⟩
        rw [keysD_eraseKey] at this
        exact (inv.nd_keys.mem_erase_iff).1 this |>.1 rfl
      · rwa [lookupD_eraseKey_ne _ hkr] at h'
    · intro hfin k v s hkv hsv hsk hsl
      obtain ⟨w, hw⟩ := hsl
      have hsroot : s ≠ root := by
        rintro rfl
        exact (inv.nopred s (hasPredecessor_of_lookup hkv hsv)).1 (List.mem_cons_self _ _)
      by_cases hkroot : k = root
      · have hkr2 := hkroot.symm
        subst hkr2
        have hskeys' : s ∈ keysD graph' := by
          rw [keysD_eraseKey]
          exact (List.mem_erase_of_ne hsroot).2 ((mem_keysD_iff_lookup _ _).2 ⟨w, hw⟩)
        have hsΔ : s ∈ Δ₁ := by
          rcases hkeys s hskeys' with h | h
          · rw [hfin] at h
            simp [keysD] at h
          · exact h
        have hndΔ : (Δ₁ ++ root :: o).Nodup := by
          rw [← hΔeq]
          exact hnd
        have hrootΔ : root ∉ Δ₁ := by
          intro hr
          exact (List.nodup_append.1 hndΔ).2.2 hr (List.mem_cons_self _ _)
        rw [hΔeq, List.indexOf_append_of_mem hsΔ,
          List.indexOf_append_of_not_mem hrootΔ, List.indexOf_cons_self]
        have := List.indexOf_lt_length.2 hsΔ
        omega
      · refine horder hfin k v s ?_ hsv hsk ?_
        · rw [lookupD_eraseKey_ne _ hkroot]
          exact hkv
        · exact ⟨w, by rw [lookupD_eraseKey_ne _ hsroot]; exact hw⟩

/-! ### The graph built from assignments with distinct reference names -/

theorem buildGraph_aux (l : List Assignment) :
    ∀ g : List (String × List String),
    (keysD g ++ l.map Assignment.name).Nodup →
    l.foldl (fun g a => dictInsert g a.name a.refs) g =
      g ++ l.map (fun a => (a.name, a.refs)) := by
  induction l with
  | nil =>
    intro g _
    simp
  | cons a l ih =>
    intro g h
    rw [List.foldl_cons]
    have hna : a.name ∉ keysD g := by
      intro hmem
      rw [List.map_cons] at h
      exact (List.nodup_append.1 h).2.2 hmem (List.mem_cons_self _ _)
    have hnone : lookupD g a.name = none := (lookupD_eq_none_iff g a.name).2 hna
    have hstep : dictInsert g a.name a.refs = g ++ [(a.name, a.refs)] := by
      simp [dictInsert, containsKey, hnone]
    rw [hstep, ih (g ++ [(a.name, a.refs)]) ?_]
    · simp
    · have hkeys : keysD (g ++ [(a.name, a.refs)]) = keysD g ++ [a.name] := by
        simp [keysD]
      rw [hkeys, List.append_assoc, List.singleton_append]
      rw [List.map_cons] at h
      exact h

theorem buildGraph_eq_pairs (l : List Assignment)
    (hN : (l.map Assignment.name).Nodup) :
    buildGraph l = l.map (fun a => (a.name, a.refs)) := by
  have := buildGraph_aux l [] (by simpa [keysD] using hN)
  simpa [buildGraph] using this

theorem keysD_pairs (l : List Assignment) :
    keysD (l.map (fun a => (a.name, a.refs))) = l.map Assignment.name := by
  simp [keysD, List.map_map]

theorem lookupD_map_pairs {l : List Assignment}
    (hN : (l.map Assignment.name).Nodup) {a : Assignment} (ha : a ∈ l) :
    lookupD (l.map (fun x => (x.name, x.refs))) a.name = some a.refs := by
  induction l with
  | nil => cases ha
  | cons b l ih =>
    rw [List.map_cons] at hN ⊢
    by_cases hba : b.name = a.name
    · rw [lookupD, if_pos hba]
      rcases List.mem_cons.1 ha with rfl | hmem
      · rfl
      · exfalso
        have : a.name ∈ l.map Assignment.name := List.mem_map_of_mem _ hmem
        exact (List.nodup_cons.1 hN).1 (hba ▸ this)
    · rw [lookupD, if_neg hba]
      rcases List.mem_cons.1 ha with rfl | hmem
      · exact absurd rfl hba
      · exact ih (List.nodup_cons.1 hN).2 hmem

/-- `NoPredIn` holds at loop entry: the initial roots are exactly the
names without predecessors. -/
theorem noPredIn_init (l : List Assignment) :
    NoPredIn (buildGraph l) (initialRoots (buildGraph l)) [] := by
  intro n hn
  refine ⟨?_, by simp⟩
  intro hmem
  rw [initialRoots] at hmem
  have := List.of_mem_filter (List.mem_reverse.1 hmem)
  rw [hn] at this
  simp at this

theorem kahnInv_init (l : List Assignment) (hN : (l.map Assignment.name).Nodup)
    (hR : ∀ a ∈ l, a.refs.Nodup) :
    KahnInv (buildGraph l) (initialRoots (buildGraph l)) [] := by
  have hG := buildGraph_eq_pairs l hN
  have hkeys : (keysD (buildGraph l)).Nodup := by
    rw [hG, keysD_pairs]
    exact hN
  refine ⟨noPredIn_init l, ?_, ?_, hkeys, ?_⟩
  · rw [List.append_nil, initialRoots, List.nodup_reverse]
    exact hkeys.filter _
  · intro k _ hk
    simp at hk
  · intro e he
    rw [hG] at he
    obtain ⟨a, ha, rfl⟩ := List.mem_map.1 he
    exact hR a ha

/-! ### Comparator facts for the final stable sort -/

theorem orderLe_trans (O : List String) (a b c : Assignment) :
    orderLe O a b = true → orderLe O b c = true → orderLe O a c = true := by
  simp only [orderLe, decide_eq_true_eq]
  exact le_trans

theorem orderLe_total (O : List String) (a b : Assignment) :
    (orderLe O a b || orderLe O b a) = true := by
  simp only [orderLe, Bool.or_eq_true, decide_eq_true_eq]
  exact Nat.le_total _ _

/-! ### Claim theorems for `topological_sort` -/

/-- C1 (amended): for assignments with pairwise-distinct reference names,
every name in `a.references()` other than `a.reference_name()` that is
the reference name of some input assignment appears at an earlier
position in the successful output than `a`. -/
theorem topological_sort_dependency_order (l : List Assignment)
    (hN : (l.map Assignment.name).Nodup) (hR : ∀ a ∈ l, a.refs.Nodup)
    (out : List Assignment) (hok : topological_sort l = Except.ok out) :
    ∀ (i : Nat) (hi : i < out.length) (n : String),
      n ∈ (out.get ⟨i, hi⟩).refs → n ≠ (out.get ⟨i, hi⟩).name →
      n ∈ l.map Assignment.name →
      ∃ (j : Nat) (hj : j < out.length), j < i ∧ (out.get ⟨j, hj⟩).name = n := by
  have hres : sortResidue l = [] := by
    by_contra hres
    rw [topological_sort, if_neg hres] at hok
    cases hok
  rw [topological_sort, if_pos hres] at hok
  injection hok with hout
  subst hout
  have hG := buildGraph_eq_pairs l hN
  obtain ⟨hnd, Δ, hΔ, hkeys, hlk, horder⟩ := sortLoop_main _ _ _ (kahnInv_init l hN hR)
  intro i hi n hn hneq hnl
  have haout : (sortedByOrder l (sortOrder l)).get ⟨i, hi⟩ ∈ sortedByOrder l (sortOrder l) :=
    List.get_mem _ _ _
  have hal : (sortedByOrder l (sortOrder l)).get ⟨i, hi⟩ ∈ l :=
    (List.mergeSort_perm l (orderLe (sortOrder l))).subset haout
  obtain ⟨b, hbl, hbn⟩ := List.mem_map.1 hnl
  have hka : lookupD (buildGraph l) ((sortedByOrder l (sortOrder l)).get ⟨i, hi⟩).name
      = some ((sortedByOrder l (sortOrder l)).get ⟨i, hi⟩).refs := by
    rw [hG]
    exact lookupD_map_pairs hN hal
  have hkb : lookupD (buildGraph l) n = some b.refs := by
    rw [hG, ← hbn]
    exact lookupD_map_pairs hN hbl
  have hidx : (sortOrder l).indexOf n <
      (sortOrder l).indexOf ((sortedByOrder l (sortOrder l)).get ⟨i, hi⟩).name :=
    horder hres _ _ n hka hn hneq ⟨b.refs, hkb⟩
  have hbout : b ∈ sortedByOrder l (sortOrder l) :=
    ((List.mergeSort_perm l (orderLe (sortOrder l))).symm).subset hbl
  obtain ⟨⟨j, hj⟩, hbj⟩ := List.mem_iff_get.1 hbout
  refine ⟨j, hj, ?_, by rw [hbj, hbn]⟩
  rcases lt_trichotomy j i with h | h | h
  · exact h
  · exfalso
    subst h
    exact hneq ((hbn.symm).trans (congrArg Assignment.name hbj.symm))
  · exfalso
    have hpw : (sortedByOrder l (sortOrder l)).Pairwise
        (fun x y => orderLe (sortOrder l) x y = true) :=
      List.sorted_mergeSort (orderLe_trans (sortOrder l)) (orderLe_total (sortOrder l)) l
    have hij := (List.pairwise_iff_get.1 hpw) ⟨i, hi⟩ ⟨j, hj⟩ h
    rw [hbj] at hij
    simp only [orderLe, decide_eq_true_eq] at hij
    rw [hbn] at hij
    omega

/-- Concrete evaluation helper: when the fueled loop empties the graph
and the input is already sorted for the resulting order, the sort
succeeds returning the input itself. -/
theorem topological_sort_eval_ok (l : List Assignment) (fuel : Nat)
    (h : graphSize (buildGraph l) + (initialRoots (buildGraph l)).length ≤ fuel)
    (hres : (sortLoopFuel fuel (buildGraph l) (initialRoots (buildGraph l)) []).1 = [])
    (hsorted : l.Pairwise (fun x y =>
      orderLe ((sortLoopFuel fuel (buildGraph l) (initialRoots (buildGraph l)) []).2) x y = true)) :
    topological_sort l = Except.ok l := by
  have heq : sortLoop (buildGraph l) (initialRoots (buildGraph l)) [] =
      sortLoopFuel fuel (buildGraph l) (initialRoots (buildGraph l)) [] :=
    sortLoop_eq_fuel fuel _ _ _ h
  have h1 : sortResidue l = [] := by
    rw [sortResidue, heq]
    exact hres
  have h2 : sortOrder l =
      (sortLoopFuel fuel (buildGraph l) (initialRoots (buildGraph l)) []).2 := by
    rw [sortOrder, heq]
  rw [topological_sort, if_pos h1, sortedByOrder, h2,
    List.mergeSort_of_sorted hsorted]

/-- C1 counterexample to the claim as stated: a single assignment `A`
whose references contain the undefined name `X` sorts successfully, but
`X` appears at no position of the output at all. -/
theorem topological_sort_dependency_order_cex :
    topological_sort [Assignment.mk "A" ["X"]] = Except.ok [Assignment.mk "A" ["X"]] ∧
    "X" ∈ (Assignment.mk "A" ["X"]).refs ∧
    "X" ≠ (Assignment.mk "A" ["X"]).name ∧
    ∀ b ∈ [Assignment.mk "A" ["X"]], b.name ≠ "X" := by
  refine ⟨topological_sort_eval_ok _ 10 (by decide) (by decide) (by decide),
    by decide, by decide, by decide⟩

/-- Witness for C1's amended theorem on the chain `A -> B`. -/
theorem topological_sort_dependency_order_witness :
    ∃ (j : Nat) (hj : j < ([Assignment.mk "B" [], Assignment.mk "A" ["B"]] : List Assignment).length),
      j < 1 ∧ (([Assignment.mk "B" [], Assignment.mk "A" ["B"]] : List Assignment).get ⟨j, hj⟩).name = "B" := by
  have h := topological_sort_dependency_order
    [Assignment.mk "B" [], Assignment.mk "A" ["B"]] (by decide)
    (by decide) [Assignment.mk "B" [], Assignment.mk "A" ["B"]]
    (topological_sort_eval_ok _ 10 (by decide) (by decide) (by decide))
  exact h 1 (by decide) "B" (by decide) (by decide) (by decide)

/-- C4: once root candidates are exhausted, any leftover graph entries
cause `topological_sort` to raise an error carrying exactly those
leftovers (never a silent partial order); in particular a two-node
mutual reference always leaves a leftover. -/
theorem topological_sort_cycle_error :
    (∀ l : List Assignment, sortResidue l ≠ [] →
      topological_sort l = .error (sortResidue l)) ∧
    (∀ (l : List Assignment) (a b : Assignment), (l.map Assignment.name).Nodup →
      a ∈ l → b ∈ l → a.name ≠ b.name → b.name ∈ a.refs → a.name ∈ b.refs →
      sortResidue l ≠ []) := by
  constructor
  · intro l h
    rw [topological_sort, if_neg h]
  · intro l a b hN ha hb hab hba hab'
    have hG := buildGraph_eq_pairs l hN
    have hka : lookupD (buildGraph l) a.name = some a.refs := by
      rw [hG]
      exact lookupD_map_pairs hN ha
    have hkb : lookupD (buildGraph l) b.name = some b.refs := by
      rw [hG]
      exact lookupD_map_pairs hN hb
    have hkeep := sortLoop_keeps [a.name, b.name] (buildGraph l)
      (initialRoots (buildGraph l)) [] (noPredIn_init l)
      (fun k hk => by
        rcases List.mem_cons.1 hk with rfl | hk
        · exact ⟨b.name, b.refs, by simp, hkb, hab'⟩
        · rcases List.mem_cons.1 hk with rfl | hk
          · exact ⟨a.name, a.refs, by simp, hka, hba⟩
          · cases hk)
      (fun k hk => by
        rcases List.mem_cons.1 hk with rfl | hk
        · exact ⟨a.refs, hka⟩
        · rcases List.mem_cons.1 hk with rfl | hk
          · exact ⟨b.refs, hkb⟩
          · cases hk)
    obtain ⟨v, hv⟩ := hkeep a.name (by simp)
    intro hres
    rw [show (sortLoop (buildGraph l) (initialRoots (buildGraph l)) []).1
        = sortResidue l from rfl, hres] at hv
    cases hv

/-- Witness for C4 on the two-node mutual reference `A <-> B`. -/
theorem topological_sort_cycle_error_witness :
    sortResidue [Assignment.mk "A" ["B"], Assignment.mk "B" ["A"]] ≠ [] ∧
    topological_sort [Assignment.mk "A" ["B"], Assignment.mk "B" ["A"]] =
      .error (sortResidue [Assignment.mk "A" ["B"], Assignment.mk "B" ["A"]]) := by
  have h2 := topological_sort_cycle_error.2
    [Assignment.mk "A" ["B"], Assignment.mk "B" ["A"]]
    (Assignment.mk "A" ["B"]) (Assignment.mk "B" ["A"])
    (by decide) (by decide) (by decide) (by decide) (by decide) (by decide)
  exact ⟨h2, topological_sort_cycle_error.1 _ h2⟩

/-- C10 (amended): among assignments with pairwise-distinct reference
names, a direct self-reference always makes `topological_sort` raise the
cycle error, with the self-referential name among the leftovers. -/
theorem topological_sort_self_reference (l : List Assignment)
    (hN : (l.map Assignment.name).Nodup) (a : Assignment) (ha : a ∈ l)
    (hself : a.name ∈ a.refs) :
    topological_sort l = .error (sortResidue l) ∧ a.name ∈ keysD (sortResidue l) := by
  have hG := buildGraph_eq_pairs l hN
  have hka : lookupD (buildGraph l) a.name = some a.refs := by
    rw [hG]
    exact lookupD_map_pairs hN ha
  have hkeep := sortLoop_keeps [a.name] (buildGraph l)
    (initialRoots (buildGraph l)) [] (noPredIn_init l)
    (fun k hk => by
      rcases List.mem_cons.1 hk with rfl | hk
      · exact ⟨a.name, a.refs, by simp, hka, hself⟩
      · cases hk)
    (fun k hk => by
      rcases List.mem_cons.1 hk with rfl | hk
      · exact ⟨a.refs, hka⟩
      · cases hk)
  obtain ⟨v, hv⟩ := hkeep a.name (by simp)
  have hmem : a.name ∈ keysD (sortResidue l) :=
    (mem_keysD_iff_lookup _ _).2 ⟨v, hv⟩
  have hres : sortResidue l ≠ [] := by
    intro hres
    rw [hres] at hmem
    simp [keysD] at hmem
  exact ⟨by rw [topological_sort, if_neg hres], hmem⟩

/-- C10 counterexample to the claim as stated: with two assignments
sharing the name `N` (the later one overwriting the graph entry), the
directly self-referential first assignment survives into a successful
output. -/
theorem topological_sort_self_reference_cex :
    (Assignment.mk "N" ["N"]).name ∈ (Assignment.mk "N" ["N"]).refs ∧
    topological_sort [Assignment.mk "N" ["N"], Assignment.mk "N" []] =
      Except.ok [Assignment.mk "N" ["N"], Assignment.mk "N" []] := by
  exact ⟨by decide, topological_sort_eval_ok _ 10 (by decide) (by decide) (by decide)⟩

/-- Witness for C10's amended theorem on `A -> A` beside an unrelated `B`. -/
theorem topological_sort_self_reference_witness :
    topological_sort [Assignment.mk "A" ["A"], Assignment.mk "B" []] =
      .error (sortResidue [Assignment.mk "A" ["A"], Assignment.mk "B" []]) ∧
    "A" ∈ keysD (sortResidue [Assignment.mk "A" ["A"], Assignment.mk "B" []]) := by
  exact topological_sort_self_reference
    [Assignment.mk "A" ["A"], Assignment.mk "B" []] (by decide)
    (Assignment.mk "A" ["A"]) (by decide) (by decide)

/-! ### Parse-tree and sema-node model (sema.py lines 184-696)

A parse node (`parser.AnnotatedToken`) carries a type tag and an ordered
element list whose members are either nested nodes or raw token strings.
Constructed sema nodes are modelled by `TypeDecl`; constraint bounds are
kept in their raw token string form, as the source stores them.
Construction returns `none` exactly where the Python constructor raises
(assertion failures, index/attribute errors on malformed shapes). -/

inductive PElem where
  | raw (s : String)
  | tok (ty : String) (elements : List PElem)

inductive TypeDecl where
  | simpleType (type_name : String) (constraint : Option (String × String))
  | referencedType (module_reference : Option String) (type_name : String)
  | taggedType (class_name : Option String) (class_number : Option String)
      (implicit : Bool) (type_decl : TypeDecl)
  | collectionType (kind : String) (size_constraint : Option (String × String))
      (type_decl : TypeDecl)
deriving DecidableEq, Repr

/-- The loop over `tag_token.elements` in `TaggedType.__init__`:
`TagClassNumber` sets the class number, `TagClass` the class name,
anything else is an assertion failure. -/
def parseTag : List PElem → Option String → Option String →
    Option (Option String × Option String)
  | [], cn, nb => some (cn, nb)
  | (PElem.tok "TagClassNumber" ((PElem.raw n) :: _)) :: rest, cn, _ =>
    parseTag rest cn (some n)
  | (PElem.tok "TagClass" ((PElem.raw c) :: _)) :: rest, _, nb =>
    parseTag rest (some c) nb
  | _, _, _ => none

/-- `_create_sema_node` restricted to the type-declaration variants the
claims exercise: `Type` unwrapping, `SimpleType` (with optional value
range constraint), `ReferencedType`, `TaggedType`, and
`SEQUENCE OF`/`SET OF` (with optional size constraint). -/
def createTypeDecl : PElem → Option TypeDecl
  | .tok "Type" (e :: _) => createTypeDecl e
  | .tok "SimpleType" (PElem.raw name :: rest) =>
    (match rest with
     | [] => some (TypeDecl.simpleType name none)
     | (PElem.tok ty els) :: _ =>
       if ty = "Constraint" then
         match els with
         | [PElem.raw mn, PElem.raw mx] => some (TypeDecl.simpleType name (some (mn, mx)))
         | _ => none
       else some (TypeDecl.simpleType name none)
     | (PElem.raw _) :: _ => none)
  | .tok "ReferencedType" (PElem.tok "ModuleReference" (PElem.raw m :: _) :: PElem.raw name :: _) =>
    some (TypeDecl.referencedType (some m) name)
  | .tok "ReferencedType" (PElem.raw name :: _) =>
    some (TypeDecl.referencedType none name)
  | .tok "TaggedType" (PElem.tok _tty tagEls :: PElem.raw s :: t :: _) =>
    (match parseTag tagEls none none with
     | some cnb => (createTypeDecl t).map (TypeDecl.taggedType cnb.1 cnb.2 (s == "IMPLICIT"))
     | none => none)
  | .tok "TaggedType" (PElem.tok _tty tagEls :: PElem.tok t2 e2 :: _) =>
    (match parseTag tagEls none none with
     | some cnb =>
       (createTypeDecl (PElem.tok t2 e2)).map (TypeDecl.taggedType cnb.1 cnb.2 false)
     | none => none)
  | .tok "SequenceOfType" (PElem.tok "Type" tes :: _) =>
    (createTypeDecl (PElem.tok "Type" tes)).map (TypeDecl.collectionType "SEQUENCE" none)
  | .tok "SequenceOfType"
      (PElem.tok "SizeConstraint" [PElem.raw mn, PElem.raw mx] :: t :: _) =>
    (createTypeDecl t).map (TypeDecl.collectionType "SEQUENCE" (some (mn, mx)))
  | .tok "SetOfType" (PElem.tok "Type" tes :: _) =>
    (createTypeDecl (PElem.tok "Type" tes)).map (TypeDecl.collectionType "SET" none)
  | .tok "SetOfType"
      (PElem.tok "SizeConstraint" [PElem.raw mn, PElem.raw mx] :: t :: _) =>
    (createTypeDecl t).map (TypeDecl.collectionType "SET" (some (mn, mx)))
  | _ => none

/-- `TaggedType(elements)` as dispatched by `_create_sema_node`. -/
def mkTaggedType (elements : List PElem) : Option TypeDecl :=
  createTypeDecl (PElem.tok "TaggedType" elements)

/-- The canonical textual rendering `__str__` of the modelled type
declarations; `none` where Python's string formatting would raise
(a missing tag class number inside `' '.join`). -/
def strTypeDecl : TypeDecl → Option String
  | .simpleType name none => some name
  | .simpleType name (some (mn, mx)) => some (name ++ " (" ++ mn ++ ".." ++ mx ++ ")")
  | .referencedType _ name => some name
  | .taggedType cn nb impl td =>
    (match nb with
     | none => none
     | some nbv =>
       (strTypeDecl td).map (fun s =>
         "[" ++ (match cn with | some c => c ++ " " ++ nbv | none => nbv) ++ "] " ++
           (if impl then "IMPLICIT " else "") ++ s))
  | .collectionType kind none td => (strTypeDecl td).map (fun s => kind ++ " OF " ++ s)
  | .collectionType kind (some (mn, mx)) td =>
    (strTypeDecl td).map (fun s =>
      kind ++ " SIZE(" ++ mn ++ ".." ++ mx ++ ") OF " ++ s)

/-! ### `Module.user_types` and `Module.resolve_type_decl`
(sema.py lines 244-262) -/

/-- The lazily built name-to-declaration index: later assignments with a
colliding name silently replace earlier ones. -/
def mkUserTypes (typeAssignments : List (String × TypeDecl)) :
    List (String × TypeDecl) :=
  typeAssignments.foldl (fun m e => dictInsert m e.1 e.2) []

def isRef : TypeDecl → Bool
  | .referencedType _ _ => true
  | _ => false

/-- `resolve_type_decl`, with an explicit recursion bound: the Python
source recurses without a cycle guard, so a bound `fuel` models "within
`fuel` steps"; `none` means the bound was exhausted or a referenced name
is missing from the index (`KeyError`). -/
def resolve_type_decl (M : List (String × TypeDecl)) : Nat → TypeDecl → Option TypeDecl
  | 0, _ => none
  | fuel + 1, d =>
    match d with
    | .referencedType _ name =>
      (match lookupD M name with
       | some d2 => resolve_type_decl M fuel d2
       | none => none)
    | _ => some d

/-- The alias chain from `d` reaches the non-reference declaration `r`
by repeated lookups: this is exactly "the chain is acyclic and every
referenced name is defined". -/
inductive Resolves (M : List (String × TypeDecl)) : TypeDecl → TypeDecl → Prop where
  | base (d : TypeDecl) : isRef d = false → Resolves M d d
  | step (mr : Option String) (name : String) (d r : TypeDecl) :
      lookupD M name = some d → Resolves M d r →
      Resolves M (.referencedType mr name) r

/-! ### `ValueListType` auto-numbering (sema.py lines 557-569) -/

/-- A member of a `ValueListType`'s named value list: a `NamedValue`
(value kept in raw string form, `none` when absent) or the `...`
extension marker. -/
inductive ListElem where
  | namedValue (identifier : String) (value : Option String)
  | extensionMarker
deriving DecidableEq, Repr

def digitsToNatCore : List Char → Nat → Option Nat
  | [], acc => some acc
  | c :: cs, acc =>
    if '0' ≤ c ∧ c ≤ '9' then digitsToNatCore cs (acc * 10 + (c.toNat - '0'.toNat))
    else none

/-- Python `int()` on a canonical decimal numeral string. -/
def pyInt (s : String) : Option Int :=
  match s.data with
  | [] => none
  | '-' :: rest =>
    (match rest with
     | [] => none
     | _ => (digitsToNatCore rest 0).map (fun n => -(n : Int)))
  | l => (digitsToNatCore l 0).map Int.ofNat

/-- The left-to-right fix-up loop of `ValueListType.__init__`: `prev` is
the already-fixed-up previous element (`none` at index 0). Returns
`none` where Python raises: a previous entry without a parseable value,
or an extension marker as the previous entry. -/
def fixupFrom (prev : Option ListElem) : List ListElem → Option (List ListElem)
  | [] => some []
  | e :: rest =>
    match e with
    | .namedValue id none =>
      (match prev with
       | none =>
         (fixupFrom (some (ListElem.namedValue id (some "0"))) rest).map
           (ListElem.namedValue id (some "0") :: ·)
       | some p =>
         match p with
         | .namedValue _ (some v) =>
           (match pyInt v with
            | some n =>
              (fixupFrom (some (ListElem.namedValue id (some (toString (n + 1))))) rest).map
                (ListElem.namedValue id (some (toString (n + 1))) :: ·)
            | none => none)
         | .namedValue _ none => none
         | .extensionMarker => none)
    | _ => (fixupFrom (some e) rest).map (e :: ·)

/-- The value fix-up performed while constructing a `ValueListType` from
its named value list. -/
def valueListFixup (namedValues : List ListElem) : Option (List ListElem) :=
  fixupFrom none namedValues

/-! ### Claim theorems for the sema-node model -/

/-- C6: whenever the alias chain from `decl` is acyclic with all
referenced names defined (`Resolves`), `resolve_type_decl` terminates —
some recursion bound suffices, and any larger one gives the same result
— returning the non-reference declaration at the end of the chain; a
non-reference input is returned unchanged. -/
theorem resolve_type_decl_spec (M : List (String × TypeDecl)) :
    (∀ d r, Resolves M d r →
      isRef r = false ∧ ∃ n, ∀ m, n ≤ m → resolve_type_decl M m d = some r) ∧
    (∀ d, isRef d = false → ∀ m, 1 ≤ m → resolve_type_decl M m d = some d) := by
  have hbase : ∀ d : TypeDecl, isRef d = false → ∀ m : Nat, 1 ≤ m →
      resolve_type_decl M m d = some d := by
    intro d hd m hm
    match m, hm with
    | k + 1, _ =>
      cases d with
      | referencedType mr name => simp [isRef] at hd
      | simpleType a b => simp [resolve_type_decl]
      | taggedType a b c d => simp [resolve_type_decl]
      | collectionType a b c => simp [resolve_type_decl]
  refine ⟨?_, hbase⟩
  intro d r h
  induction h with
  | base d hd => exact ⟨hd, 1, fun m hm => hbase d hd m hm⟩
  | step mr name d r hlook _ ih =>
    obtain ⟨hr, n, hn⟩ := ih
    refine ⟨hr, n + 1, ?_⟩
    intro m hm
    match m, hm with
    | k + 1, _ =>
      rw [resolve_type_decl, hlook]
      exact hn k (by omega)

/-- Witness for C6 on the chain `T3 -> T2 -> T1 -> INTEGER`. -/
theorem resolve_type_decl_spec_witness :
    isRef (TypeDecl.simpleType "INTEGER" none) = false ∧
    ∃ n, ∀ m, n ≤ m →
      resolve_type_decl (mkUserTypes [("T1", TypeDecl.simpleType "INTEGER" none),
          ("T2", TypeDecl.referencedType none "T1"),
          ("T3", TypeDecl.referencedType none "T2")]) m
        (TypeDecl.referencedType none "T3") = some (TypeDecl.simpleType "INTEGER" none) := by
  apply (resolve_type_decl_spec _).1
  exact Resolves.step none "T3" (TypeDecl.referencedType none "T2") _ (by decide)
    (Resolves.step none "T2" (TypeDecl.referencedType none "T1") _ (by decide)
      (Resolves.step none "T1" (TypeDecl.simpleType "INTEGER" none) _ (by decide)
        (Resolves.base _ (by decide))))

/-- C8: the implicit flag of a constructed `TaggedType` is true exactly
when the token preceding the type declaration is the literal string
`IMPLICIT`; when the tag is immediately followed by an annotated type
token the flag is false. -/
theorem taggedType_implicit_flag :
    (∀ (tag : PElem) (ty : String) (els rest : List PElem) (t : TypeDecl),
      mkTaggedType (tag :: PElem.tok ty els :: rest) = some t →
      ∃ cn nb td, t = TypeDecl.taggedType cn nb false td) ∧
    (∀ (tag : PElem) (s : String) (e : PElem) (rest : List PElem) (t : TypeDecl),
      mkTaggedType (tag :: PElem.raw s :: e :: rest) = some t →
      ∃ cn nb td, t = TypeDecl.taggedType cn nb (s == "IMPLICIT") td) := by
  constructor
  · intro tag ty els rest t h
    match tag with
    | PElem.raw s =>
      rw [mkTaggedType,
        show createTypeDecl (PElem.tok "TaggedType"
          (PElem.raw s :: PElem.tok ty els :: rest)) = none from rfl] at h
      cases h
    | PElem.tok tty tagEls =>
      rw [mkTaggedType,
        show createTypeDecl (PElem.tok "TaggedType"
            (PElem.tok tty tagEls :: PElem.tok ty els :: rest)) =
          (match parseTag tagEls none none with
           | some cnb =>
             (createTypeDecl (PElem.tok ty els)).map
               (TypeDecl.taggedType cnb.1 cnb.2 false)
           | none => none) from rfl] at h
      rcases hp : parseTag tagEls none none with _ | cnb <;> rw [hp] at h
      · cases h
      · rcases Option.map_eq_some'.1 h with ⟨td, _, htd⟩
        exact ⟨cnb.1, cnb.2, td, htd.symm⟩
  · intro tag s e rest t h
    match tag with
    | PElem.raw s' =>
      rw [mkTaggedType,
        show createTypeDecl (PElem.tok "TaggedType"
          (PElem.raw s' :: PElem.raw s :: e :: rest)) = none from rfl] at h
      cases h
    | PElem.tok tty tagEls =>
      rw [mkTaggedType,
        show createTypeDecl (PElem.tok "TaggedType"
            (PElem.tok tty tagEls :: PElem.raw s :: e :: rest)) =
          (match parseTag tagEls none none with
           | some cnb =>
             (createTypeDecl e).map
               (TypeDecl.taggedType cnb.1 cnb.2 (s == "IMPLICIT"))
           | none => none) from rfl] at h
      rcases hp : parseTag tagEls none none with _ | cnb <;> rw [hp] at h
      · cases h
      · rcases Option.map_eq_some'.1 h with ⟨td, _, htd⟩
        exact ⟨cnb.1, cnb.2, td, htd.symm⟩

/-- Witness for C8 on the parse of `[2] IMPLICIT INTEGER`. -/
theorem taggedType_implicit_flag_witness :
    ∃ cn nb td,
      TypeDecl.taggedType none (some "2") true (TypeDecl.simpleType "INTEGER" none) =
        TypeDecl.taggedType cn nb (("IMPLICIT" : String) == "IMPLICIT") td := by
  exact taggedType_implicit_flag.2
    (PElem.tok "Tag" [PElem.tok "TagClassNumber" [PElem.raw "2"]]) "IMPLICIT"
    (PElem.tok "Type" [PElem.tok "SimpleType" [PElem.raw "INTEGER"]]) []
    (TypeDecl.taggedType none (some "2") true (TypeDecl.simpleType "INTEGER" none)) rfl

/-- C9: the canonical rendering reproduces the spec's examples:
`[2] IMPLICIT INTEGER` and `SEQUENCE SIZE(1..10) OF INTEGER`. -/
theorem rendering_round_trip :
    (createTypeDecl (PElem.tok "TaggedType"
      [PElem.tok "Tag" [PElem.tok "TagClassNumber" [PElem.raw "2"]],
       PElem.raw "IMPLICIT",
       PElem.tok "Type" [PElem.tok "SimpleType" [PElem.raw "INTEGER"]]])).bind strTypeDecl =
      some "[2] IMPLICIT INTEGER" ∧
    (createTypeDecl (PElem.tok "SequenceOfType"
      [PElem.tok "SizeConstraint" [PElem.raw "1", PElem.raw "10"],
       PElem.tok "Type" [PElem.tok "SimpleType" [PElem.raw "INTEGER"]]])).bind strTypeDecl =
      some "SEQUENCE SIZE(1..10) OF INTEGER" := by
  exact ⟨by decide, by decide⟩

/-- Specification of the fix-up loop relative to the already-fixed
previous element `prev`: explicit values and markers pass through, a
missing value at the front becomes `"0"` when there is no previous
element and `previous value + 1` otherwise, and a missing value at any
later position becomes the (fixed-up) previous entry's value plus one. -/
theorem fixupFrom_spec : ∀ (l : List ListElem) (prev : Option ListElem)
    (out : List ListElem), fixupFrom prev l = some out →
    out.length = l.length ∧
    (∀ i id v, l.get? i = some (ListElem.namedValue id (some v)) →
      out.get? i = some (ListElem.namedValue id (some v))) ∧
    (∀ i, l.get? i = some ListElem.extensionMarker →
      out.get? i = some ListElem.extensionMarker) ∧
    (∀ id, l.get? 0 = some (ListElem.namedValue id none) →
      (prev = none → out.get? 0 = some (ListElem.namedValue id (some "0"))) ∧
      (∀ pid pv, prev = some (ListElem.namedValue pid (some pv)) →
        ∃ n, pyInt pv = some n ∧
          out.get? 0 = some (ListElem.namedValue id (some (toString (n + 1)))))) ∧
    (∀ i id, l.get? (i + 1) = some (ListElem.namedValue id none) →
      ∃ pid pv n, out.get? i = some (ListElem.namedValue pid (some pv)) ∧
        pyInt pv = some n ∧
        out.get? (i + 1) = some (ListElem.namedValue id (some (toString (n + 1))))) := by
  intro l
  induction l with
  | nil =>
    intro prev out h
    rw [fixupFrom] at h
    injection h with h
    subst h
    refine ⟨rfl, ?_, ?_, ?_, ?_⟩ <;> intro i <;> simp
  | cons e rest ih =>
    intro prev out h
    -- In every successful branch `out = e' :: out'` where `e'` is the
    -- fixed head and the tail was processed with `prev := some e'`.
    suffices hsuff : ∃ e' out', out = e' :: out' ∧
        fixupFrom (some e') rest = some out' ∧
        ((∀ id v, e = ListElem.namedValue id (some v) → e' = e) ∧
         (e = ListElem.extensionMarker → e' = e) ∧
         (∀ id, e = ListElem.namedValue id none →
           (prev = none → e' = ListElem.namedValue id (some "0")) ∧
           (∀ pid pv, prev = some (ListElem.namedValue pid (some pv)) →
             ∃ n, pyInt pv = some n ∧
               e' = ListElem.namedValue id (some (toString (n + 1)))))) by
      obtain ⟨e', out', rfl, hout', he₁, he₂, he₃⟩ := hsuff
      obtain ⟨hlen, hexp, hmark, hzero, hsucc⟩ := ih (some e') out' hout'
      refine ⟨by simp [hlen], ?_, ?_, ?_, ?_⟩
      · intro i id v hget
        match i with
        | 0 =>
          rw [List.get?_cons_zero] at hget ⊢
          injection hget with hget
          rw [he₁ id v hget, hget]
        | i + 1 =>
          rw [List.get?_cons_succ] at hget ⊢
          exact hexp i id v hget
      · intro i hget
        match i with
        | 0 =>
          rw [List.get?_cons_zero] at hget ⊢
          injection hget with hget
          rw [he₂ hget, hget]
        | i + 1 =>
          rw [List.get?_cons_succ] at hget ⊢
          exact hmark i hget
      · intro id hget
        rw [List.get?_cons_zero] at hget
        injection hget with hget
        obtain ⟨h0, hp⟩ := he₃ id hget
        constructor
        · intro hprev
          rw [List.get?_cons_zero, h0 hprev]
        · intro pid pv hprev
          obtain ⟨n, hn, he'⟩ := hp pid pv hprev
          exact ⟨n, hn, by rw [List.get?_cons_zero, he']⟩
      · intro i id hget
        match i with
        | 0 =>
          rw [List.get?_cons_succ] at hget
          -- the previous element of position 1 is the fixed head `e'`,
          -- which must carry a value or the tail fix-up would have failed
          have he'val : ∃ pid pv, e' = ListElem.namedValue pid (some pv) := by
            cases rest with
            | nil => simp at hget
            | cons r0 rest2 =>
              rw [List.get?_cons_zero] at hget
              injection hget with hget
              subst hget
              cases e' with
              | namedValue pid pvo =>
                cases pvo with
                | some pv => exact ⟨pid, pv, rfl⟩
                | none =>
                  simp [fixupFrom] at hout'
              | extensionMarker =>
                  simp [fixupFrom] at hout'
          obtain ⟨pid, pv, he'⟩ := he'val
          obtain ⟨n, hn, hc⟩ := (hzero id hget).2 pid pv (by rw [he'])
          exact ⟨pid, pv, n, by rw [List.get?_cons_zero, he'], hn,
            by rw [List.get?_cons_succ]; exact hc⟩
        | i + 1 =>
          rw [List.get?_cons_succ] at hget
          obtain ⟨pid, pv, n, h1, h2, h3⟩ := hsucc i id hget
          exact ⟨pid, pv, n, by rw [List.get?_cons_succ]; exact h1, h2,
            by rw [List.get?_cons_succ]; exact h3⟩
    -- Establish the branch analysis.
    match e with
    | ListElem.namedValue id0 (some v0) =>
      simp only [fixupFrom] at h
      rcases hrest : fixupFrom (some (ListElem.namedValue id0 (some v0))) rest
        with _ | out' <;> rw [hrest] at h
      · cases h
      · injection h with h
        refine ⟨ListElem.namedValue id0 (some v0), out', h.symm, hrest, ?_, ?_, ?_⟩
        · intro id v hid
          rfl
        · intro hid
          simp at hid
        · intro id hid
          simp at hid
    | ListElem.extensionMarker =>
      simp only [fixupFrom] at h
      rcases hrest : fixupFrom (some ListElem.extensionMarker) rest
        with _ | out' <;> rw [hrest] at h
      · cases h
      · injection h with h
        refine ⟨ListElem.extensionMarker, out', h.symm, hrest, ?_, ?_, ?_⟩
        · intro id v hid
          simp at hid
        · intro hid
          rfl
        · intro id hid
          simp at hid
    | ListElem.namedValue id0 none =>
      match prev with
      | none =>
        simp only [fixupFrom] at h
        rcases hrest : fixupFrom (some (ListElem.namedValue id0 (some "0"))) rest
          with _ | out' <;> rw [hrest] at h
        · cases h
        · injection h with h
          refine ⟨ListElem.namedValue id0 (some "0"), out', h.symm, hrest, ?_, ?_, ?_⟩
          · intro id v hid
            simp at hid
          · intro hid
            simp at hid
          · intro id hid
            injection hid with hid _
            subst hid
            exact ⟨fun _ => rfl, fun pid pv hpn => by simp at hpn⟩
      | some (ListElem.namedValue pid0 (some pv0)) =>
        rcases hpi : pyInt pv0 with _ | n
        · simp [fixupFrom, hpi] at h
        · simp only [fixupFrom, hpi] at h
          rcases hrest : fixupFrom
              (some (ListElem.namedValue id0 (some (toString (n + 1))))) rest
            with _ | out' <;> rw [hrest] at h
          · exact absurd h (by simp)
          · injection h with h
            refine ⟨ListElem.namedValue id0 (some (toString (n + 1))), out',
              h.symm, hrest, ?_, ?_, ?_⟩
            · intro id v hid
              simp at hid
            · intro hid
              simp at hid
            · intro id hid
              injection hid with hid _
              subst hid
              refine ⟨fun hpn => by simp at hpn, ?_⟩
              intro pid pv hpn
              injection hpn with hpn
              injection hpn with _ hpn
              injection hpn with hpn
              exact ⟨n, by rw [← hpn]; exact hpi, rfl⟩
      | some (ListElem.namedValue pid0 none) =>
        simp [fixupFrom] at h
      | some ListElem.extensionMarker =>
        simp [fixupFrom] at h

/-- C7: constructing a `ValueListType` fixes up missing values left to
right — `0` for a first entry, the previous (fixed-up) entry's value
plus one otherwise — and in particular `[A, B(5), C, D]` yields
`[0, 5, 6, 7]` and `[A, B, C]` yields `[0, 1, 2]`. -/
theorem valueListType_autonumber :
    (∀ (l out : List ListElem), valueListFixup l = some out →
      out.length = l.length ∧
      (∀ i id v, l.get? i = some (ListElem.namedValue id (some v)) →
        out.get? i = some (ListElem.namedValue id (some v))) ∧
      (∀ i, l.get? i = some ListElem.extensionMarker →
        out.get? i = some ListElem.extensionMarker) ∧
      (∀ id, l.get? 0 = some (ListElem.namedValue id none) →
        out.get? 0 = some (ListElem.namedValue id (some "0"))) ∧
      (∀ i id, l.get? (i + 1) = some (ListElem.namedValue id none) →
        ∃ pid pv n, out.get? i = some (ListElem.namedValue pid (some pv)) ∧
          pyInt pv = some n ∧
          out.get? (i + 1) = some (ListElem.namedValue id (some (toString (n + 1)))))) ∧
    valueListFixup [ListElem.namedValue "A" none, ListElem.namedValue "B" (some "5"),
        ListElem.namedValue "C" none, ListElem.namedValue "D" none] =
      some [ListElem.namedValue "A" (some "0"), ListElem.namedValue "B" (some "5"),
        ListElem.namedValue "C" (some "6"), ListElem.namedValue "D" (some "7")] ∧
    valueListFixup [ListElem.namedValue "A" none, ListElem.namedValue "B" none,
        ListElem.namedValue "C" none] =
      some [ListElem.namedValue "A" (some "0"), ListElem.namedValue "B" (some "1"),
        ListElem.namedValue "C" (some "2")] := by
  refine ⟨?_, by decide, by decide⟩
  intro l out h
  obtain ⟨hlen, hexp, hmark, hzero, hsucc⟩ := fixupFrom_spec l none out h
  exact ⟨hlen, hexp, hmark, fun id hget => (hzero id hget).1 rfl, hsucc⟩

/-- Witness for C7 on `[A, B(5), C, D]`. -/
theorem valueListType_autonumber_witness :
    ([ListElem.namedValue "A" (some "0"), ListElem.namedValue "B" (some "5"),
      ListElem.namedValue "C" (some "6"), ListElem.namedValue "D" (some "7")] :
        List ListElem).length =
      ([ListElem.namedValue "A" none, ListElem.namedValue "B" (some "5"),
        ListElem.namedValue "C" none, ListElem.namedValue "D" none] :
          List ListElem).length ∧
    ([ListElem.namedValue "A" (some "0"), ListElem.namedValue "B" (some "5"),
      ListElem.namedValue "C" (some "6"), ListElem.namedValue "D" (some "7")] :
        List ListElem).get? 0 = some (ListElem.namedValue "A" (some "0")) := by
  have h := valueListType_autonumber
  exact ⟨(h.1 _ _ h.2.1).1, (h.1 _ _ h.2.1).2.2.2.1 "A" rfl⟩

/-! ### `dependency_sort` (sema.py lines 87-161)

Tarjan's algorithm. Node identity is the assignment itself (Python keys
dicts by object; structurally distinct assignments model this, so the
theorems assume a duplicate-free input list). The Python `stack` pushes
and pops at its tail; we keep it reversed (head = top). A popped
component lists its members in pop order (stack top first), and
`result.append` adds it at the end. -/

abbrev DepGraph := List (Assignment × List Assignment)

/-- `assignments_by_name`: name-to-assignment dict (later duplicates
overwrite). -/
def assignmentsByName (l : List Assignment) : List (String × Assignment) :=
  l.foldl (fun m a => dictInsert m a.name a) []

/-- The dependency graph: edges from an assignment to the assignment
objects matching each referenced name; unresolvable names are dropped. -/
def buildDepGraph (l : List Assignment) : DepGraph :=
  l.foldl (fun g a =>
    dictInsert g a (a.refs.filterMap (fun r => lookupD (assignmentsByName l) r))) []

/-- `graph.get(node, [])`. -/
def succsOf (g : DepGraph) (a : Assignment) : List Assignment :=
  (lookupD g a).getD []

/-- Mutable algorithm state: `index_counter[0]`, the explicit stack, the
`lowlinks` and `index` dicts, and the accumulated `result`. -/
structure TarjanState where
  counter : Nat
  stack : List Assignment
  lowlinks : List (Assignment × Nat)
  index : List (Assignment × Nat)
  result : List (List Assignment)

def idxOf (st : TarjanState) (v : Assignment) : Nat :=
  (lookupD st.index v).getD 0

def lowOf (st : TarjanState) (v : Assignment) : Nat :=
  (lookupD st.lowlinks v).getD 0

/-- All assignments already emitted into components. -/
def emitted (st : TarjanState) : List Assignment :=
  st.result.flatten

/-- The `while True: successor = stack.pop(); ...` loop closing a
component: collect stack elements down to `node` inclusive (top first),
returning the component and the remaining stack. -/
def popUntil (node : Assignment) : List Assignment → List Assignment × List Assignment
  | [] => ([], [])
  | x :: rest =>
    if x = node then ([x], rest)
    else
      let p := popUntil node rest
      (x :: p.1, p.2)

mutual

/-- `strongconnect(node)`: assign index and lowlink, push, scan
successors, then close a component when `lowlinks[node] == index[node]`.
`fuel` bounds the recursion nesting; it is spent only on recursive
`strongconnect` calls and is proven sufficient below. -/
def strongconnect (g : DepGraph) : Nat → Assignment → TarjanState → Option TarjanState
  | 0, _, _ => none
  | fuel + 1, node, st =>
    let st1 : TarjanState :=
      { counter := st.counter + 1
        stack := node :: st.stack
        lowlinks := dictInsert st.lowlinks node st.counter
        index := dictInsert st.index node st.counter
        result := st.result }
    match processSuccessors g fuel node (succsOf g node) st1 with
    | none => none
    | some st2 =>
      if lowOf st2 node = idxOf st2 node then
        let p := popUntil node st2.stack
        some { st2 with stack := p.2, result := st2.result ++ [p.1] }
      else some st2
termination_by fuel _ _ => (fuel, 0)

/-- The `for successor in successors:` loop body of `strongconnect`. -/
def processSuccessors (g : DepGraph) : Nat → Assignment → List Assignment →
    TarjanState → Option TarjanState
  | _, _, [], st => some st
  | fuel, node, s :: rest, st =>
    if containsKey st.lowlinks s = false then
      match strongconnect g fuel s st with
      | none => none
      | some st' =>
        processSuccessors g fuel node rest
          { st' with lowlinks :=
              dictInsert st'.lowlinks node (min (lowOf st' node) (lowOf st' s)) }
    else if s ∈ st.stack then
      processSuccessors g fuel node rest
        { st with lowlinks :=
            dictInsert st.lowlinks node (min (lowOf st node) (idxOf st s)) }
    else
      processSuccessors g fuel node rest st
termination_by fuel _ succs _ => (fuel, succs.length + 1)

end

/-- The `for node in graph: if node not in lowlinks: strongconnect(node)`
driver. -/
def tarjanLoop (g : DepGraph) (fuel : Nat) :
    List Assignment → TarjanState → Option TarjanState
  | [], st => some st
  | n :: rest, st =>
    if containsKey st.lowlinks n then tarjanLoop g fuel rest st
    else
      match strongconnect g fuel n st with
      | none => none
      | some st' => tarjanLoop g fuel rest st'

def initTarjanState : TarjanState :=
  { counter := 0, stack := [], lowlinks := [], index := [], result := [] }

/-- `dependency_sort`: run Tarjan over the dependency graph and return
the component list. The fuel `l.length + 1` always suffices (proved
below), so `none` is never returned. -/
def dependency_sort (l : List Assignment) : Option (List (List Assignment)) :=
  let g := buildDepGraph l
  (tarjanLoop g (l.length + 1) (keysD g) initTarjanState).map TarjanState.result

/-! ### Further association-list lemmas -/

theorem lookup_overwrite {α β : Type} [DecidableEq α] (k : α) (v : β) :
    ∀ d : List (α × β), (∃ w, lookupD d k = some w) →
    lookupD (d.map (fun e => if e.1 = k then (k, v) else e)) k = some v := by
  intro d
  induction d with
  | nil =>
    rintro ⟨w, hw⟩
    simp [lookupD] at hw
  | cons e es ih =>
    rintro ⟨w, hw⟩
    by_cases hek : e.1 = k
    · simp [List.map_cons, if_pos hek, lookupD]
    · rw [lookupD, if_neg hek] at hw
      rw [List.map_cons, if_neg hek, lookupD, if_neg hek]
      exact ih ⟨w, hw⟩

theorem lookup_overwrite_ne {α β : Type} [DecidableEq α] {j k : α}
    (h : j ≠ k) (v : β) : ∀ d : List (α × β),
    lookupD (d.map (fun e => if e.1 = k then (k, v) else e)) j = lookupD d j := by
  intro d
  induction d with
  | nil => rfl
  | cons e es ih =>
    by_cases hek : e.1 = k
    · simp only [List.map_cons, if_pos hek, lookupD]
      rw [if_neg (fun hh => h hh.symm), if_neg (by rw [hek]; exact fun hh => h hh.symm)]
      exact ih
    · simp only [List.map_cons, if_neg hek, lookupD]
      by_cases hej : e.1 = j
      · rw [if_pos hej, if_pos hej]
      · rw [if_neg hej, if_neg hej]
        exact ih

theorem lookup_append_single {α β : Type} [DecidableEq α] (k : α) (v : β) :
    ∀ d : List (α × β), lookupD d k = none → lookupD (d ++ [(k, v)]) k = some v := by
  intro d
  induction d with
  | nil => intro _; simp [lookupD]
  | cons e es ih =>
    intro h
    by_cases hek : e.1 = k
    · rw [lookupD, if_pos hek] at h
      cases h
    · rw [lookupD, if_neg hek] at h
      rw [List.cons_append, lookupD, if_neg hek]
      exact ih h

theorem lookup_append_single_ne {α β : Type} [DecidableEq α] {j k : α}
    (h : j ≠ k) (v : β) : ∀ d : List (α × β),
    lookupD (d ++ [(k, v)]) j = lookupD d j := by
  intro d
  induction d with
  | nil =>
    have hkj : ¬((k, v).1 = j) := fun hh => h (Eq.symm hh)
    simp [lookupD, hkj]
  | cons e es ih =>
    rw [List.cons_append, lookupD, lookupD]
    by_cases hej : e.1 = j
    · rw [if_pos hej, if_pos hej]
    · rw [if_neg hej, if_neg hej]
      exact ih

theorem lookupD_dictInsert_self {α β : Type} [DecidableEq α]
    (d : List (α × β)) (k : α) (v : β) :
    lookupD (dictInsert d k v) k = some v := by
  rw [dictInsert]
  by_cases h : containsKey d k = true
  · rw [if_pos h]
    rw [containsKey, Option.isSome_iff_exists] at h
    exact lookup_overwrite k v d h
  · rw [if_neg h]
    apply lookup_append_single
    rw [containsKey] at h
    rcases hl : lookupD d k with _ | w
    · rfl
    · rw [hl] at h
      simp at h

theorem lookupD_dictInsert_ne {α β : Type} [DecidableEq α]
    (d : List (α × β)) {j k : α} (h : j ≠ k) (v : β) :
    lookupD (dictInsert d k v) j = lookupD d j := by
  rw [dictInsert]
  by_cases hc : containsKey d k = true
  · rw [if_pos hc]
    exact lookup_overwrite_ne h v d
  · rw [if_neg hc]
    exact lookup_append_single_ne h v d

theorem containsKey_iff_mem_keys {α β : Type} [DecidableEq α]
    (d : List (α × β)) (k : α) : containsKey d k = true ↔ k ∈ keysD d := by
  rw [containsKey, Option.isSome_iff_ne_none]
  constructor
  · intro h
    by_contra hk
    exact h ((lookupD_eq_none_iff d k).2 hk)
  · intro h hn
    exact (lookupD_eq_none_iff d k).1 hn h

theorem keysD_dictInsert_of_contains {α β : Type} [DecidableEq α]
    {d : List (α × β)} {k : α} (h : containsKey d k = true) (v : β) :
    keysD (dictInsert d k v) = keysD d := by
  rw [dictInsert, if_pos h, keysD, keysD, List.map_map]
  apply List.map_congr_left
  intro e _
  by_cases hek : e.1 = k
  · simp [hek]
  · simp [hek]

theorem keysD_dictInsert_of_not_contains {α β : Type} [DecidableEq α]
    {d : List (α × β)} {k : α} (h : ¬(containsKey d k = true)) (v : β) :
    keysD (dictInsert d k v) = keysD d ++ [k] := by
  rw [dictInsert, if_neg h, keysD, keysD, List.map_append]
  rfl

theorem mem_dictInsert {α β : Type} [DecidableEq α]
    {d : List (α × β)} {k : α} {v : β} {e : α × β} (h : e ∈ dictInsert d k v) :
    e = (k, v) ∨ e ∈ d := by
  rw [dictInsert] at h
  by_cases hc : containsKey d k = true
  · rw [if_pos hc] at h
    obtain ⟨e₀, he₀, heq⟩ := List.mem_map.1 h
    by_cases hek : e₀.1 = k
    · rw [if_pos hek] at heq
      exact Or.inl heq.symm
    · rw [if_neg hek] at heq
      exact Or.inr (heq ▸ he₀)
  · rw [if_neg hc] at h
    rcases List.mem_append.1 h with h | h
    · exact Or.inr h
    · exact Or.inl (List.mem_singleton.1 h)

theorem popUntil_spec (node : Assignment) (Δ rest : List Assignment)
    (h : node ∉ Δ) : popUntil node (Δ ++ node :: rest) = (Δ ++ [node], rest) := by
  induction Δ with
  | nil => simp [popUntil]
  | cons x xs ih =>
    have hx : ¬(x = node) := fun hh => h (hh ▸ List.mem_cons_self _ _)
    rw [List.cons_append, popUntil, if_neg hx,
      ih (fun hh => h (List.mem_cons_of_mem _ hh))]
    rfl

/-! ### Path predicates over the dependency graph -/

/-- A nonempty path whose intermediate vertices all satisfy `P`
(endpoints are unconstrained). -/
inductive MidPath (g : DepGraph) (P : Assignment → Prop) :
    Assignment → Assignment → Prop where
  | single {u w : Assignment} : w ∈ succsOf g u → MidPath g P u w
  | cons {u z w : Assignment} : z ∈ succsOf g u → P z → MidPath g P z w →
      MidPath g P u w

theorem MidPath.mono {g : DepGraph} {P Q : Assignment → Prop}
    (hPQ : ∀ z, P z → Q z) {u w : Assignment} (h : MidPath g P u w) :
    MidPath g Q u w := by
  induction h with
  | single he => exact MidPath.single he
  | cons he hz _ ih => exact MidPath.cons he (hPQ _ hz) ih

/-- Reflexive-transitive reachability staying inside the vertex list `S`. -/
inductive ReachIn (g : DepGraph) (S : List Assignment) :
    Assignment → Assignment → Prop where
  | refl (u : Assignment) : u ∈ S → ReachIn g S u u
  | tail {u v w : Assignment} : ReachIn g S u v → w ∈ succsOf g v → w ∈ S →
      ReachIn g S u w

theorem ReachIn.trans {g : DepGraph} {S : List Assignment} {u v w : Assignment}
    (h1 : ReachIn g S u v) (h2 : ReachIn g S v w) : ReachIn g S u w := by
  induction h2 with
  | refl _ => exact h1
  | tail _ he hw ih => exact ReachIn.tail ih he hw

theorem midPath_reachIn {g : DepGraph} {P : Assignment → Prop}
    {S : List Assignment} {u w : Assignment} (h : MidPath g P u w)
    (hu : u ∈ S) (hw : w ∈ S) (hP : ∀ z, P z → z ∈ S) : ReachIn g S u w := by
  induction h with
  | single he => exact ReachIn.tail (ReachIn.refl _ hu) he hw
  | cons he hz hp ih =>
    exact ReachIn.trans (ReachIn.tail (ReachIn.refl _ hu) he (hP _ hz)) (ih (hP _ hz) hw)

/-! ### Tarjan invariants -/

/-- Every edge target is itself a graph key (true of `buildDepGraph`:
successors are looked-up assignments). -/
def GraphClosed (g : DepGraph) : Prop :=
  ∀ e ∈ g, ∀ v ∈ e.2, v ∈ keysD g

/-- Structural well-formedness of the algorithm state. -/
structure TWF (g : DepGraph) (st : TarjanState) : Prop where
  dom_eq : keysD st.lowlinks = keysD st.index
  nd_dom : (keysD st.lowlinks).Nodup
  dom_sub : ∀ v ∈ keysD st.lowlinks, v ∈ keysD g
  stack_sub : ∀ v ∈ st.stack, v ∈ keysD st.lowlinks
  nd_stack : st.stack.Nodup
  stack_sorted : st.stack.Pairwise (fun a b => idxOf st b < idxOf st a)
  idx_lt : ∀ e ∈ st.index, e.2 < st.counter
  low_lt : ∀ e ∈ st.lowlinks, e.2 < st.counter
  perm : (st.stack ++ emitted st).Perm (keysD st.lowlinks)
  res_closed : ∀ i C, st.result.get? i = some C → ∀ u ∈ C, ∀ v ∈ succsOf g u,
    ∃ j C', j ≤ i ∧ st.result.get? j = some C' ∧ v ∈ C'
  res_sc : ∀ C ∈ st.result, ∀ u ∈ C, ∀ v ∈ C, ReachIn g C u v
  res_ne : ∀ C ∈ st.result, C ≠ []

/-- `z` sits on the stack strictly above `u` (larger index). -/
def StackAbove (st : TarjanState) (u z : Assignment) : Prop :=
  z ∈ st.stack ∧ idxOf st u < idxOf st z

/-- All of `u`'s successors have been visited, each either already
emitted or on the stack with `u`'s lowlink at most its index. -/
def Done (g : DepGraph) (st : TarjanState) (u : Assignment) : Prop :=
  ∀ v ∈ succsOf g u, v ∈ keysD st.lowlinks ∧
    (v ∈ emitted st ∨ (v ∈ st.stack ∧ lowOf st u ≤ idxOf st v))

/-- `u`'s lowlink is realised by a path to a stack node of that index,
through stack nodes above `u`. -/
def RB (g : DepGraph) (st : TarjanState) (u : Assignment) : Prop :=
  ∃ w, w ∈ st.stack ∧ idxOf st w = lowOf st u ∧
    (u = w ∨ MidPath g (StackAbove st u) u w)

/-- The package carried by every node whose `strongconnect` call has
returned without popping it. -/
def Completed (g : DepGraph) (st : TarjanState) (u : Assignment) : Prop :=
  Done g st u ∧ lowOf st u < idxOf st u ∧ RB g st u

/-- `u` is reachable from `node` through stack nodes above `node`. -/
def Down (g : DepGraph) (st : TarjanState) (node u : Assignment) : Prop :=
  node = u ∨ MidPath g (StackAbove st node) node u

/-- Frame facts between two states of one call: the visited set grows,
old indices are frozen, old lowlinks other than `x`'s are frozen, the
old stack is preserved underneath, emitted components persist, and new
nodes receive indices at least the old counter. -/
structure ExtendsE (x : Assignment) (st st' : TarjanState) : Prop where
  dom_grow : ∀ v ∈ keysD st.lowlinks, v ∈ keysD st'.lowlinks
  idx_frame : ∀ v ∈ keysD st.lowlinks, lookupD st'.index v = lookupD st.index v
  low_frame : ∀ v ∈ keysD st.lowlinks, v ≠ x → lookupD st'.lowlinks v = lookupD st.lowlinks v
  stack_ext : ∃ δ, st'.stack = δ ++ st.stack
  emit_grow : ∀ y ∈ emitted st, y ∈ emitted st'
  counter_mono : st.counter ≤ st'.counter
  new_idx : ∀ v ∈ keysD st'.lowlinks, v ∉ keysD st.lowlinks → st.counter ≤ idxOf st' v
  res_ext : ∃ ΔR, st'.result = st.result ++ ΔR

theorem ExtendsE.refl (x : Assignment) (st : TarjanState) : ExtendsE x st st :=
  ⟨fun _ h => h, fun _ _ => rfl, fun _ _ _ => rfl, ⟨[], rfl⟩, fun _ h => h,
    le_refl _, fun v hv hv' => absurd hv hv', ⟨[], (List.append_nil _).symm⟩⟩

theorem ExtendsE.stack_mem {x : Assignment} {st st' : TarjanState}
    (h : ExtendsE x st st') {v : Assignment} (hv : v ∈ st.stack) : v ∈ st'.stack := by
  obtain ⟨δ, hδ⟩ := h.stack_ext
  rw [hδ]
  exact List.mem_append.2 (Or.inr hv)

theorem ExtendsE.idx_eq {x : Assignment} {st st' : TarjanState}
    (h : ExtendsE x st st') {v : Assignment} (hv : v ∈ keysD st.lowlinks) :
    idxOf st' v = idxOf st v := by
  rw [idxOf, idxOf, h.idx_frame v hv]

theorem ExtendsE.low_eq {x : Assignment} {st st' : TarjanState}
    (h : ExtendsE x st st') {v : Assignment} (hv : v ∈ keysD st.lowlinks)
    (hvx : v ≠ x) : lowOf st' v = lowOf st v := by
  rw [lowOf, lowOf, h.low_frame v hv hvx]

theorem ExtendsE.comp {x : Assignment} {st st' st'' : TarjanState}
    (h1 : ExtendsE x st st') (h2 : ExtendsE x st' st'') : ExtendsE x st st'' := by
  refine ⟨?_, ?_, ?_, ?_, ?_, le_trans h1.counter_mono h2.counter_mono, ?_, ?_⟩
  · exact fun v hv => h2.dom_grow v (h1.dom_grow v hv)
  · intro v hv
    rw [h2.idx_frame v (h1.dom_grow v hv), h1.idx_frame v hv]
  · intro v hv hvx
    rw [h2.low_frame v (h1.dom_grow v hv) hvx, h1.low_frame v hv hvx]
  · obtain ⟨δ1, hδ1⟩ := h1.stack_ext
    obtain ⟨δ2, hδ2⟩ := h2.stack_ext
    exact ⟨δ2 ++ δ1, by rw [hδ2, hδ1, List.append_assoc]⟩
  · exact fun y hy => h2.emit_grow y (h1.emit_grow y hy)
  · intro v hv hv'
    by_cases hmid : v ∈ keysD st'.lowlinks
    · rw [h2.idx_eq hmid]
      exact h1.new_idx v hmid hv'
    · exact le_trans h1.counter_mono (h2.new_idx v hv hmid)
  · obtain ⟨ΔR1, hΔ1⟩ := h1.res_ext
    obtain ⟨ΔR2, hΔ2⟩ := h2.res_ext
    exact ⟨ΔR1 ++ ΔR2, by rw [hΔ2, hΔ1, List.append_assoc]⟩

theorem ExtendsE.change_exception {x y : Assignment} {st st' : TarjanState}
    (h : ExtendsE x st st') (hx : x ∉ keysD st.lowlinks) : ExtendsE y st st' := by
  refine ⟨h.dom_grow, h.idx_frame, ?_, h.stack_ext, h.emit_grow, h.counter_mono,
    h.new_idx, h.res_ext⟩
  intro v hv _
  exact h.low_frame v hv (fun hvx => hx (hvx ▸ hv))

/-- `Completed` survives any extension that freezes the node's own
bookkeeping (true of all later activity of outer calls on other nodes). -/
theorem completed_mono {g : DepGraph} {x : Assignment} {st st' : TarjanState}
    (hW : TWF g st) (hE : ExtendsE x st st') {u : Assignment}
    (hu : u ∈ keysD st.lowlinks) (hux : u ≠ x) (h : Completed g st u) :
    Completed g st' u := by
  obtain ⟨hdone, hlt, w, hw, hwi, hwp⟩ := h
  have hlowu : lowOf st' u = lowOf st u := hE.low_eq hu hux
  have hidxu : idxOf st' u = idxOf st u := hE.idx_eq hu
  refine ⟨?_, ?_, ?_⟩
  · intro v hv
    obtain ⟨hvdom, hvc⟩ := hdone v hv
    refine ⟨hE.dom_grow v hvdom, ?_⟩
    rcases hvc with hvc | ⟨hvs, hvi⟩
    · exact Or.inl (hE.emit_grow v hvc)
    · refine Or.inr ⟨hE.stack_mem hvs, ?_⟩
      rw [hlowu, hE.idx_eq (hW.stack_sub v hvs)]
      exact hvi
  · rw [hlowu, hidxu]
    exact hlt
  · refine ⟨w, hE.stack_mem hw, ?_, ?_⟩
    · rw [hlowu, hE.idx_eq (hW.stack_sub w hw)]
      exact hwi
    · rcases hwp with hwp | hwp
      · exact Or.inl hwp
      · refine Or.inr (hwp.mono ?_)
        intro z hz
        refine ⟨hE.stack_mem hz.1, ?_⟩
        rw [hidxu, hE.idx_eq (hW.stack_sub z hz.1)]
        exact hz.2

/-- `Down` likewise survives extensions. -/
theorem down_mono {g : DepGraph} {x : Assignment} {st st' : TarjanState}
    (hW : TWF g st) (hE : ExtendsE x st st') {node u : Assignment}
    (hnode : node ∈ keysD st.lowlinks) (h : Down g st node u) :
    Down g st' node u := by
  rcases h with h | h
  · exact Or.inl h
  · refine Or.inr (h.mono ?_)
    intro z hz
    refine ⟨hE.stack_mem hz.1, ?_⟩
    rw [hE.idx_eq hnode, hE.idx_eq (hW.stack_sub z hz.1)]
    exact hz.2

/-- Loop invariant of `processSuccessors` relative to the running call's
`node` and the stack `base` that lay below it at `strongconnect` entry:
the stack is `node`'s completed leftovers on top of `node :: base`, and
`node`'s lowlink is its own index or realised by a path into `base`. -/
structure PSInv (g : DepGraph) (node : Assignment) (base : List Assignment)
    (st : TarjanState) : Prop where
  wf : TWF g st
  node_dom : node ∈ keysD st.lowlinks
  stack_split : ∃ Δ, st.stack = Δ ++ node :: base ∧
    ∀ u ∈ Δ, Completed g st u ∧ lowOf st node ≤ lowOf st u ∧ Down g st node u
  low_le : lowOf st node ≤ idxOf st node
  low_cases : lowOf st node = idxOf st node ∨
    ∃ w, w ∈ base ∧ lowOf st node = idxOf st w ∧
      MidPath g (StackAbove st node) node w

def SCPre (g : DepGraph) (fuel : Nat) (node : Assignment) (st : TarjanState) : Prop :=
  GraphClosed g ∧ (keysD g).Nodup ∧ TWF g st ∧ node ∈ keysD g ∧
  node ∉ keysD st.lowlinks ∧ (keysD g).length ≤ fuel + (keysD st.lowlinks).length

def SCPost (g : DepGraph) (node : Assignment) (st st' : TarjanState) : Prop :=
  TWF g st' ∧ ExtendsE node st st' ∧ node ∈ keysD st'.lowlinks ∧
  st.counter < st'.counter ∧ idxOf st' node = st.counter ∧
  ((st'.stack = st.stack ∧ node ∈ emitted st' ∧ lowOf st' node = idxOf st' node) ∨
   (∃ Δ, st'.stack = Δ ++ node :: st.stack ∧
     (∀ u ∈ Δ, u ∉ keysD st.lowlinks ∧ u ≠ node) ∧
     Completed g st' node ∧
     (∀ u ∈ Δ, Completed g st' u ∧ lowOf st' node ≤ lowOf st' u ∧ Down g st' node u) ∧
     (∃ w, w ∈ st.stack ∧ lowOf st' node = idxOf st' w ∧
       MidPath g (StackAbove st' node) node w)))

def SCSpec (fuel : Nat) : Prop :=
  ∀ g node st, SCPre g fuel node st →
    ∃ st', strongconnect g fuel node st = some st' ∧ SCPost g node st st'

def PSPre (g : DepGraph) (fuel : Nat) (node : Assignment) (base : List Assignment)
    (succs : List Assignment) (st : TarjanState) : Prop :=
  GraphClosed g ∧ (keysD g).Nodup ∧ PSInv g node base st ∧ node ∈ keysD g ∧
  (∀ x ∈ succs, x ∈ succsOf g node) ∧
  (keysD g).length ≤ fuel + (keysD st.lowlinks).length ∧
  (∀ v ∈ succsOf g node, v ∈ succs ∨ (v ∈ keysD st.lowlinks ∧
    (v ∈ emitted st ∨ (v ∈ st.stack ∧ lowOf st node ≤ idxOf st v))))

def PSPost (g : DepGraph) (node : Assignment) (base : List Assignment)
    (st st' : TarjanState) : Prop :=
  PSInv g node base st' ∧ ExtendsE node st st' ∧ Done g st' node

def PSSpec (fuel : Nat) : Prop :=
  ∀ g node base succs st, PSPre g fuel node base succs st →
    ∃ st', processSuccessors g fuel node succs st = some st' ∧
      PSPost g node base st st'

/-! #### Unfold equations and small helpers -/

theorem strongconnect_zero (g : DepGraph) (node : Assignment) (st : TarjanState) :
    strongconnect g 0 node st = none := by
  rw [strongconnect]

theorem strongconnect_succ (g : DepGraph) (fuel : Nat) (node : Assignment)
    (st : TarjanState) :
    strongconnect g (fuel + 1) node st =
      (match processSuccessors g fuel node (succsOf g node)
          { counter := st.counter + 1
            stack := node :: st.stack
            lowlinks := dictInsert st.lowlinks node st.counter
            index := dictInsert st.index node st.counter
            result := st.result } with
      | none => none
      | some st2 =>
        if lowOf st2 node = idxOf st2 node then
          some { st2 with
            stack := (popUntil node st2.stack).2
            result := st2.result ++ [(popUntil node st2.stack).1] }
        else some st2) := by
  rw [strongconnect]

theorem processSuccessors_nil (g : DepGraph) (fuel : Nat) (node : Assignment)
    (st : TarjanState) : processSuccessors g fuel node [] st = some st := by
  rw [processSuccessors]

theorem processSuccessors_cons (g : DepGraph) (fuel : Nat) (node s : Assignment)
    (rest : List Assignment) (st : TarjanState) :
    processSuccessors g fuel node (s :: rest) st =
      (if containsKey st.lowlinks s = false then
        match strongconnect g fuel s st with
        | none => none
        | some st' =>
          processSuccessors g fuel node rest
            { st' with lowlinks :=
                dictInsert st'.lowlinks node (min (lowOf st' node) (lowOf st' s)) }
      else if s ∈ st.stack then
        processSuccessors g fuel node rest
          { st with lowlinks :=
              dictInsert st.lowlinks node (min (lowOf st node) (idxOf st s)) }
      else processSuccessors g fuel node rest st) := by
  rw [processSuccessors]

theorem idxOf_lt_counter {g : DepGraph} {st : TarjanState} (hW : TWF g st)
    {v : Assignment} (hv : v ∈ keysD st.lowlinks) : idxOf st v < st.counter := by
  rw [hW.dom_eq] at hv
  obtain ⟨i, hi⟩ := (mem_keysD_iff_lookup _ _).1 hv
  rw [idxOf, hi, Option.getD_some]
  exact hW.idx_lt _ (lookupD_mem hi)

theorem lowOf_lt_counter {g : DepGraph} {st : TarjanState} (hW : TWF g st)
    {v : Assignment} (hv : v ∈ keysD st.lowlinks) : lowOf st v < st.counter := by
  obtain ⟨i, hi⟩ := (mem_keysD_iff_lookup _ _).1 hv
  rw [lowOf, hi, Option.getD_some]
  exact hW.low_lt _ (lookupD_mem hi)

theorem succsOf_sub_keys {g : DepGraph} (hg : GraphClosed g) {node : Assignment}
    (hnode : node ∈ keysD g) : ∀ v ∈ succsOf g node, v ∈ keysD g := by
  intro v hv
  obtain ⟨l, hl⟩ := (mem_keysD_iff_lookup _ _).1 hnode
  rw [succsOf, hl, Option.getD_some] at hv
  exact hg (node, l) (lookupD_mem hl) v hv

/-- A member of the visited set lies on the stack or among the emitted
components. -/
theorem dom_stack_or_emitted {g : DepGraph} {st : TarjanState} (hW : TWF g st)
    {v : Assignment} (hv : v ∈ keysD st.lowlinks) :
    v ∈ st.stack ∨ v ∈ emitted st := by
  have := (hW.perm.symm).subset hv
  exact List.mem_append.1 this

theorem dom_length_lt {g : DepGraph} {st : TarjanState} {node : Assignment}
    (hgn : (keysD g).Nodup) (hW : TWF g st) (hnode : node ∈ keysD g)
    (hnew : node ∉ keysD st.lowlinks) :
    (keysD st.lowlinks).length < (keysD g).length := by
  have hnd : (node :: keysD st.lowlinks).Nodup := List.nodup_cons.2 ⟨hnew, hW.nd_dom⟩
  have hsub : (node :: keysD st.lowlinks) ⊆ keysD g := by
    intro x hx
    rcases List.mem_cons.1 hx with rfl | hx
    · exact hnode
    · exact hW.dom_sub x hx
  have := (hnd.subperm hsub).length_le
  rw [List.length_cons] at this
  omega

theorem dom_length_le {α β : Type} [DecidableEq α] {d : List (α × β)}
    {d' : List (α × β)} (hnd : (keysD d).Nodup)
    (hsub : ∀ v ∈ keysD d, v ∈ keysD d') :
    (keysD d).length ≤ (keysD d').length :=
  (hnd.subperm hsub).length_le

theorem sc_spec_zero : SCSpec 0 := by
  rintro g node st ⟨hg, hgn, hW, hnode, hnew, hfuel⟩
  exfalso
  have := dom_length_lt hgn hW hnode hnew
  omega

/-- Overwriting the running node's lowlink with a smaller in-range value
preserves structural well-formedness. -/
theorem twf_updLow {g : DepGraph} {st : TarjanState} (hW : TWF g st)
    {node : Assignment} (hnode : node ∈ keysD st.lowlinks)
    {n : Nat} (hn : n < st.counter) :
    TWF g { st with lowlinks := dictInsert st.lowlinks node n } := by
  have hc : containsKey st.lowlinks node = true := (containsKey_iff_mem_keys _ _).2 hnode
  have hkeys : keysD (dictInsert st.lowlinks node n) = keysD st.lowlinks :=
    keysD_dictInsert_of_contains hc n
  refine ⟨?_, ?_, ?_, ?_, hW.nd_stack, hW.stack_sorted, hW.idx_lt, ?_, ?_,
    hW.res_closed, hW.res_sc, hW.res_ne⟩
  · rw [hkeys]
    exact hW.dom_eq
  · rw [hkeys]
    exact hW.nd_dom
  · rw [hkeys]
    exact hW.dom_sub
  · intro v hv
    rw [hkeys]
    exact hW.stack_sub v hv
  · intro e he
    rcases mem_dictInsert he with rfl | he
    · exact hn
    · exact hW.low_lt e he
  · rw [hkeys]
    exact hW.perm

/-- The same overwrite, seen as a frame extension excepting `node`. -/
theorem extendsE_updLow {st : TarjanState} {node : Assignment}
    (hnode : node ∈ keysD st.lowlinks) (n : Nat) :
    ExtendsE node st { st with lowlinks := dictInsert st.lowlinks node n } := by
  have hc : containsKey st.lowlinks node = true := (containsKey_iff_mem_keys _ _).2 hnode
  have hkeys : keysD (dictInsert st.lowlinks node n) = keysD st.lowlinks :=
    keysD_dictInsert_of_contains hc n
  refine ⟨?_, fun _ _ => rfl, ?_, ⟨[], rfl⟩, fun _ h => h, le_refl _, ?_,
    ⟨[], (List.append_nil _).symm⟩⟩
  · intro v hv
    rw [hkeys]
    exact hv
  · intro v hv hvn
    exact lookupD_dictInsert_ne _ hvn n
  · intro v hv hv'
    rw [hkeys] at hv
    exact absurd hv hv'

theorem lowOf_updLow_self (st : TarjanState) (node : Assignment) (n : Nat) :
    lowOf { st with lowlinks := dictInsert st.lowlinks node n } node = n := by
  rw [lowOf]
  rw [lookupD_dictInsert_self]
  rfl

theorem split_sorted_facts {g : DepGraph} {st : TarjanState} (hW : TWF g st)
    {Δ : List Assignment} {node : Assignment} {base : List Assignment}
    (hΔ : st.stack = Δ ++ node :: base) :
    (∀ u ∈ Δ, idxOf st node < idxOf st u) ∧
    (∀ w ∈ base, idxOf st w < idxOf st node) ∧ node ∉ Δ ∧ node ∉ base := by
  have hp := hW.stack_sorted
  have hnd := hW.nd_stack
  rw [hΔ, List.pairwise_append] at hp
  rw [hΔ, List.nodup_append] at hnd
  obtain ⟨hpΔ, hpnb, hcross⟩ := hp
  obtain ⟨hndΔ, hndnb, hdisj⟩ := hnd
  refine ⟨?_, ?_, ?_, ?_⟩
  · intro u hu
    exact hcross u hu node (List.mem_cons_self _ _)
  · intro w hw
    exact (List.pairwise_cons.1 hpnb).1 w hw
  · intro hmem
    exact hdisj hmem (List.mem_cons_self _ _)
  · exact (List.nodup_cons.1 hndnb).1

/-- One step of the successor loop on an unvisited successor `s`: after
the recursive `strongconnect` returns and `lowlinks[node]` is lowered by
`min` with `s`'s lowlink, the loop invariant holds again. -/
theorem ps_step_unvisited {g : DepGraph} {node s : Assignment}
    {base : List Assignment} {st st' stB : TarjanState}
    (hinv : PSInv g node base st) (hnodeg : node ∈ keysD g)
    (hs_succ : s ∈ succsOf g node) (hs_new : s ∉ keysD st.lowlinks)
    (hpost : SCPost g s st st')
    (hstB : stB =
      { st' with
        lowlinks := dictInsert st'.lowlinks node (min (lowOf st' node) (lowOf st' s)) }) :
    PSInv g node base stB ∧ ExtendsE node st stB ∧
    (s ∈ keysD stB.lowlinks ∧
      (s ∈ emitted stB ∨ (s ∈ stB.stack ∧ lowOf stB node ≤ idxOf stB s))) ∧
    lowOf stB node ≤ lowOf st node := by
  obtain ⟨hW', hE, hs_dom', hcnt, hidx_s, hcases⟩ := hpost
  have hsn : s ≠ node := fun h => hs_new (h ▸ hinv.node_dom)
  have hnode_dom' : node ∈ keysD st'.lowlinks := hE.dom_grow node hinv.node_dom
  have hlow_node' : lowOf st' node = lowOf st node := hE.low_eq hinv.node_dom hsn.symm
  have hidx_node' : idxOf st' node = idxOf st node := hE.idx_eq hinv.node_dom
  have hlow_node_lt : lowOf st node < st.counter := lowOf_lt_counter hinv.wf hinv.node_dom
  have hidx_node_lt : idxOf st node < st.counter := idxOf_lt_counter hinv.wf hinv.node_dom
  have hnewlow_le : min (lowOf st' node) (lowOf st' s) ≤ lowOf st node := by
    rw [← hlow_node']
    exact min_le_left _ _
  have hnewlow_lt : min (lowOf st' node) (lowOf st' s) < st'.counter := by
    have := le_trans hnewlow_le (le_of_lt hlow_node_lt)
    omega
  have hWB : TWF g stB := by
    rw [hstB]
    exact twf_updLow hW' hnode_dom' hnewlow_lt
  have hEB : ExtendsE node st' stB := by
    rw [hstB]
    exact extendsE_updLow hnode_dom' _
  have hEn : ExtendsE node st st' := hE.change_exception hs_new
  have hEfull : ExtendsE node st stB := hEn.comp hEB
  have hlowB_node : lowOf stB node = min (lowOf st' node) (lowOf st' s) := by
    rw [hstB]
    exact lowOf_updLow_self _ _ _
  have hstackB : stB.stack = st'.stack := by rw [hstB]
  have hidxB : ∀ v, idxOf stB v = idxOf st' v := by
    intro v
    rw [hstB]
    rfl
  have hemB : emitted stB = emitted st' := by rw [hstB]; rfl
  have hkeysB : keysD stB.lowlinks = keysD st'.lowlinks := by
    rw [hstB]
    exact keysD_dictInsert_of_contains ((containsKey_iff_mem_keys _ _).2 hnode_dom') _
  obtain ⟨Δ, hΔ, hpkg⟩ := hinv.stack_split
  obtain ⟨habove, hbelow, hnΔ, hnbase⟩ := split_sorted_facts hinv.wf hΔ
  -- membership of the old stack in the new one, and frozen bookkeeping
  have hold_pkg : ∀ u ∈ Δ, Completed g stB u ∧ lowOf stB node ≤ lowOf stB u ∧
      Down g stB node u := by
    intro u hu
    have humem : u ∈ st.stack := by
      rw [hΔ]
      exact List.mem_append.2 (Or.inl hu)
    have hudom : u ∈ keysD st.lowlinks := hinv.wf.stack_sub u humem
    have hune : u ≠ node := fun h => hnΔ (h ▸ hu)
    obtain ⟨hc, hprop, hdown⟩ := hpkg u hu
    refine ⟨completed_mono hinv.wf hEfull hudom hune hc, ?_,
      down_mono hinv.wf hEfull hinv.node_dom hdown⟩
    rw [hEfull.low_eq hudom hune, hlowB_node]
    exact le_trans hnewlow_le hprop
  have hs_inB : s ∈ keysD stB.lowlinks := by
    rw [hkeysB]
    exact hs_dom'
  refine ⟨?_, hEfull, ?_, ?_⟩
  · -- PSInv g node base stB
    refine ⟨hWB, hkeysB ▸ hnode_dom', ?_, ?_, ?_⟩
    · -- stack_split
      rcases hcases with ⟨hstk_eq, hs_em, hli⟩ | ⟨Δs, hstk_eq, hΔs_new, hcomp_s, hpkg_s, hw0⟩
      · refine ⟨Δ, ?_, hold_pkg⟩
        rw [hstackB, hstk_eq, hΔ]
      · refine ⟨Δs ++ s :: Δ, ?_, ?_⟩
        · rw [hstackB, hstk_eq, hΔ]
          simp [List.append_assoc]
        · intro u hu
          have hs_stkB : s ∈ stB.stack := by
            rw [hstackB, hstk_eq]
            exact List.mem_append.2 (Or.inr (List.mem_cons_self _ _))
          have hidx_sB : idxOf stB s = st.counter := by
            rw [hidxB, hidx_s]
          have hidx_nodeB : idxOf stB node = idxOf st node := by
            rw [hidxB, hidx_node']
          have hsaB : StackAbove stB node s := by
            refine ⟨hs_stkB, ?_⟩
            rw [hidx_sB, hidx_nodeB]
            exact hidx_node_lt
          have hmono_s : ∀ z, StackAbove st' s z → StackAbove stB node z := by
            intro z hz
            refine ⟨by rw [hstackB]; exact hz.1, ?_⟩
            have hzdom : z ∈ keysD st'.lowlinks := hW'.stack_sub z hz.1
            have : idxOf st' s < idxOf st' z := hz.2
            rw [hidxB, hidxB] at *
            rw [hidx_nodeB]
            rw [hidx_s] at this
            omega
          rcases List.mem_append.1 hu with hu | hu
          · -- u among the recursive call's leftovers
            obtain ⟨hcomp_u, hprop_u, hdown_u⟩ := hpkg_s u hu
            have hu_stk' : u ∈ st'.stack := by
              rw [hstk_eq]
              exact List.mem_append.2 (Or.inl hu)
            have hu_dom' : u ∈ keysD st'.lowlinks := hW'.stack_sub u hu_stk'
            have hu_ne : u ≠ node := fun h => (hΔs_new u hu).1 (h ▸ hinv.node_dom)
            refine ⟨completed_mono hW' hEB hu_dom' hu_ne hcomp_u, ?_, ?_⟩
            · rw [hEB.low_eq hu_dom' hu_ne, hlowB_node]
              exact le_trans (min_le_right _ _) hprop_u
            · rcases hdown_u with h | h
              · subst h
                exact Or.inr (MidPath.single hs_succ)
              · exact Or.inr (MidPath.cons hs_succ hsaB (h.mono hmono_s))
          · rcases List.mem_cons.1 hu with rfl | hu
            · -- u = s itself
              have hcompB : Completed g stB u := completed_mono hW' hEB hs_dom' hsn hcomp_s
              refine ⟨hcompB, ?_, Or.inr (MidPath.single hs_succ)⟩
              rw [hEB.low_eq hs_dom' hsn, hlowB_node]
              exact min_le_right _ _
            · exact hold_pkg u hu
    · -- low_le
      rw [hlowB_node]
      have : idxOf stB node = idxOf st node := by rw [hidxB, hidx_node']
      rw [this]
      exact le_trans hnewlow_le hinv.low_le
    · -- low_cases
      rcases le_total (lowOf st' s) (lowOf st' node) with hmin | hmin
      · -- the successor's lowlink wins
        have hminv : min (lowOf st' node) (lowOf st' s) = lowOf st' s := min_eq_right hmin
        rcases hcases with ⟨hstk_eq, hs_em, hli⟩ | ⟨Δs, hstk_eq, hΔs_new, hcomp_s, hpkg_s, hw0⟩
        · -- popped: its lowlink equals the fresh index, too large to win
          exfalso
          rw [hli, hidx_s] at hmin
          rw [hlow_node'] at hmin
          omega
        · obtain ⟨w0, hw0_stk, hw0_low, hw0_path⟩ := hw0
          have hw0_dom : w0 ∈ keysD st.lowlinks := hinv.wf.stack_sub w0 hw0_stk
          have hidx_w0 : idxOf st' w0 = idxOf st w0 := hEn.idx_eq hw0_dom
          have hs_stkB : s ∈ stB.stack := by
            rw [hstackB, hstk_eq]
            exact List.mem_append.2 (Or.inr (List.mem_cons_self _ _))
          have hsaB : StackAbove stB node s := by
            refine ⟨hs_stkB, ?_⟩
            rw [hidxB, hidxB, hidx_s, hidx_node']
            exact hidx_node_lt
          have hmono_s : ∀ z, StackAbove st' s z → StackAbove stB node z := by
            intro z hz
            refine ⟨by rw [hstackB]; exact hz.1, ?_⟩
            have : idxOf st' s < idxOf st' z := hz.2
            rw [hidxB, hidxB, hidx_node']
            rw [hidx_s] at this
            omega
          rw [hΔ] at hw0_stk
          rcases List.mem_append.1 hw0_stk with hw0m | hw0m
          · -- cannot point above `node`
            exfalso
            have h1 : idxOf st node < idxOf st w0 := habove w0 hw0m
            have h2 : lowOf st' s = idxOf st w0 := by rw [hw0_low, hidx_w0]
            rw [h2, hlow_node'] at hmin
            have := hinv.low_le
            omega
          · rcases List.mem_cons.1 hw0m with rfl | hw0m
            · -- points exactly at `node`: lowlink stays at the index
              left
              rw [hlowB_node, hminv, hw0_low, hidx_w0, hidxB, hidx_node']
            · -- points into `base`
              right
              refine ⟨w0, hw0m, ?_, ?_⟩
              · rw [hlowB_node, hminv, hw0_low, hidxB]
              · exact MidPath.cons hs_succ hsaB (hw0_path.mono hmono_s)
      · -- the old lowlink survives the min
        have hminv : min (lowOf st' node) (lowOf st' s) = lowOf st' node := min_eq_left hmin
        rcases hinv.low_cases with hl | ⟨w, hwb, hwl, hwp⟩
        · left
          rw [hlowB_node, hminv, hlow_node', hl, hidxB, hidx_node']
        · right
          have hw_stk : w ∈ st.stack := by
            rw [hΔ]
            exact List.mem_append.2 (Or.inr (List.mem_cons_of_mem _ hwb))
          have hw_dom : w ∈ keysD st.lowlinks := hinv.wf.stack_sub w hw_stk
          refine ⟨w, hwb, ?_, ?_⟩
          · rw [hlowB_node, hminv, hlow_node', hwl, hidxB, hEn.idx_eq hw_dom]
          · refine hwp.mono ?_
            intro z hz
            refine ⟨hEfull.stack_mem hz.1, ?_⟩
            have hzdom : z ∈ keysD st.lowlinks := hinv.wf.stack_sub z hz.1
            rw [hidxB, hidxB, hidx_node', hEn.idx_eq hzdom]
            exact hz.2
  · -- facts about s for the caller's bookkeeping
    refine ⟨hs_inB, ?_⟩
    rcases hcases with ⟨hstk_eq, hs_em, hli⟩ | ⟨Δs, hstk_eq, hΔs_new, hcomp_s, hpkg_s, hw0⟩
    · left
      rw [hemB]
      exact hs_em
    · right
      constructor
      · rw [hstackB, hstk_eq]
        exact List.mem_append.2 (Or.inr (List.mem_cons_self _ _))
      · rw [hlowB_node, hidxB]
        exact le_trans (min_le_right _ _) (le_of_lt hcomp_s.2.1)
  · rw [hlowB_node]
    exact hnewlow_le

/-- One step of the successor loop on an already-visited successor that
is still on the stack: `lowlinks[node]` is lowered by `min` with `s`'s
index and the loop invariant holds again. -/
theorem ps_step_onstack {g : DepGraph} {node s : Assignment}
    {base : List Assignment} {st stB : TarjanState}
    (hinv : PSInv g node base st)
    (hs_succ : s ∈ succsOf g node) (hstk : s ∈ st.stack)
    (hstB : stB =
      { st with
        lowlinks := dictInsert st.lowlinks node (min (lowOf st node) (idxOf st s)) }) :
    PSInv g node base stB ∧ ExtendsE node st stB ∧
    lowOf stB node ≤ idxOf stB s ∧ lowOf stB node ≤ lowOf st node := by
  have hnewlt : min (lowOf st node) (idxOf st s) < st.counter :=
    lt_of_le_of_lt (min_le_left _ _) (lowOf_lt_counter hinv.wf hinv.node_dom)
  have hWB : TWF g stB := by
    rw [hstB]
    exact twf_updLow hinv.wf hinv.node_dom hnewlt
  have hEB : ExtendsE node st stB := by
    rw [hstB]
    exact extendsE_updLow hinv.node_dom _
  have hlowB : lowOf stB node = min (lowOf st node) (idxOf st s) := by
    rw [hstB]
    exact lowOf_updLow_self _ _ _
  have hidxB : ∀ v, idxOf stB v = idxOf st v := by
    intro v
    rw [hstB]
    rfl
  have hstackB : stB.stack = st.stack := by rw [hstB]
  have hkeysB : keysD stB.lowlinks = keysD st.lowlinks := by
    rw [hstB]
    exact keysD_dictInsert_of_contains
      ((containsKey_iff_mem_keys _ _).2 hinv.node_dom) _
  obtain ⟨Δ, hΔ, hpkg⟩ := hinv.stack_split
  obtain ⟨habove, hbelow, hnΔ, hnbase⟩ := split_sorted_facts hinv.wf hΔ
  have hnewle : lowOf stB node ≤ lowOf st node := by
    rw [hlowB]
    exact min_le_left _ _
  refine ⟨⟨hWB, ?_, ⟨Δ, ?_, ?_⟩, ?_, ?_⟩, hEB, ?_, hnewle⟩
  · rw [hkeysB]
    exact hinv.node_dom
  · rw [hstackB]
    exact hΔ
  · intro u hu
    have humem : u ∈ st.stack := by
      rw [hΔ]
      exact List.mem_append.2 (Or.inl hu)
    have hudom := hinv.wf.stack_sub u humem
    have hune : u ≠ node := fun h => hnΔ (h ▸ hu)
    obtain ⟨hc, hprop, hdown⟩ := hpkg u hu
    refine ⟨completed_mono hinv.wf hEB hudom hune hc, ?_,
      down_mono hinv.wf hEB hinv.node_dom hdown⟩
    rw [hEB.low_eq hudom hune]
    exact le_trans hnewle hprop
  · rw [hidxB]
    exact le_trans hnewle hinv.low_le
  · rcases le_total (idxOf st s) (lowOf st node) with hmin | hmin
    · have hminv : min (lowOf st node) (idxOf st s) = idxOf st s := min_eq_right hmin
      rw [hΔ] at hstk
      rcases List.mem_append.1 hstk with hsm | hsm
      · exfalso
        have h1 := habove s hsm
        have h2 := hinv.low_le
        omega
      · rcases List.mem_cons.1 hsm with rfl | hsm
        · left
          rw [hlowB, hminv, hidxB]
        · right
          refine ⟨s, hsm, ?_, MidPath.single hs_succ⟩
          rw [hlowB, hminv, hidxB]
    · have hminv : min (lowOf st node) (idxOf st s) = lowOf st node := min_eq_left hmin
      rcases hinv.low_cases with hl | ⟨w, hwb, hwl, hwp⟩
      · left
        rw [hlowB, hminv, hidxB, hl]
      · right
        refine ⟨w, hwb, ?_, ?_⟩
        · rw [hlowB, hminv, hidxB, hwl]
        · refine hwp.mono ?_
          intro z hz
          refine ⟨?_, ?_⟩
          · rw [hstackB]
            exact hz.1
          · rw [hidxB, hidxB]
            exact hz.2
  · rw [hlowB, hidxB]
    exact min_le_right _ _

/-- If `strongconnect` meets its contract at some fuel, so does
`processSuccessors` at the same fuel. -/
theorem ps_spec_of_sc (fuel : Nat) (hsc : SCSpec fuel) : PSSpec fuel := by
  intro g node base succs
  induction succs with
  | nil =>
    intro st hpre
    obtain ⟨hg, hgn, hinv, hnodeg, hmem, hfuel, hpart⟩ := hpre
    refine ⟨st, processSuccessors_nil g fuel node st, hinv, ExtendsE.refl node st, ?_⟩
    intro v hv
    rcases hpart v hv with h | h
    · exact absurd h (List.not_mem_nil v)
    · exact h
  | cons s rest ih =>
    intro st hpre
    obtain ⟨hg, hgn, hinv, hnodeg, hmem, hfuel, hpart⟩ := hpre
    have hs_succ : s ∈ succsOf g node := hmem s (List.mem_cons_self _ _)
    rw [processSuccessors_cons]
    by_cases hvb : containsKey st.lowlinks s = false
    · -- unvisited successor: recurse via strongconnect
      rw [if_pos hvb]
      have hs_new : s ∉ keysD st.lowlinks := fun h => by
        rw [(containsKey_iff_mem_keys _ _).2 h] at hvb
        exact Bool.noConfusion hvb
      have hs_g : s ∈ keysD g := succsOf_sub_keys hg hnodeg s hs_succ
      obtain ⟨st', hsc_run, hpost⟩ := hsc g s st ⟨hg, hgn, hinv.wf, hs_g, hs_new, hfuel⟩
      rw [hsc_run]
      obtain ⟨hinvB, hEB, hsfacts, hlowle⟩ :=
        ps_step_unvisited hinv hnodeg hs_succ hs_new hpost rfl
      have hlenB := dom_length_le hinv.wf.nd_dom hEB.dom_grow
      have hpreB : PSPre g fuel node base rest
          { st' with
            lowlinks := dictInsert st'.lowlinks node (min (lowOf st' node) (lowOf st' s)) } := by
        refine ⟨hg, hgn, hinvB, hnodeg,
          fun x hx => hmem x (List.mem_cons_of_mem _ hx), by omega, ?_⟩
        intro v hv
        rcases hpart v hv with hvm | ⟨hvdom, hvcase⟩
        · rcases List.mem_cons.1 hvm with rfl | hvm
          · exact Or.inr hsfacts
          · exact Or.inl hvm
        · right
          refine ⟨hEB.dom_grow v hvdom, ?_⟩
          rcases hvcase with hvc | ⟨hvs, hvi⟩
          · exact Or.inl (hEB.emit_grow v hvc)
          · refine Or.inr ⟨hEB.stack_mem hvs, ?_⟩
            rw [hEB.idx_eq hvdom]
            exact le_trans hlowle hvi
      obtain ⟨st'', hrun2, hinv2, hE2, hdone2⟩ := ih _ hpreB
      exact ⟨st'', hrun2, hinv2, hEB.comp hE2, hdone2⟩
    · -- already visited
      rw [if_neg hvb]
      have hvis : containsKey st.lowlinks s = true := by
        revert hvb
        cases containsKey st.lowlinks s <;> simp
      have hs_dom : s ∈ keysD st.lowlinks := (containsKey_iff_mem_keys _ _).1 hvis
      by_cases hstk : s ∈ st.stack
      · -- on the stack: lower the lowlink with the index
        rw [if_pos hstk]
        obtain ⟨hinvB, hEB, hlowidx, hlowle⟩ :=
          ps_step_onstack hinv hs_succ hstk rfl
        have hkeysB : keysD (dictInsert st.lowlinks node
            (min (lowOf st node) (idxOf st s))) = keysD st.lowlinks :=
          keysD_dictInsert_of_contains
            ((containsKey_iff_mem_keys _ _).2 hinv.node_dom) _
        have hpreB : PSPre g fuel node base rest
            { st with
              lowlinks := dictInsert st.lowlinks node (min (lowOf st node) (idxOf st s)) } := by
          refine ⟨hg, hgn, hinvB, hnodeg,
            fun x hx => hmem x (List.mem_cons_of_mem _ hx), ?_, ?_⟩
          · show (keysD g).length ≤ fuel +
              (keysD (dictInsert st.lowlinks node (min (lowOf st node) (idxOf st s)))).length
            rw [hkeysB]
            exact hfuel
          · intro v hv
            rcases hpart v hv with hvm | ⟨hvdom, hvcase⟩
            · rcases List.mem_cons.1 hvm with hveq | hvm
              · right
                rw [hveq]
                refine ⟨?_, Or.inr ⟨hstk, hlowidx⟩⟩
                show s ∈ keysD (dictInsert st.lowlinks node (min (lowOf st node) (idxOf st s)))
                rw [hkeysB]
                exact hs_dom
              · exact Or.inl hvm
            · right
              refine ⟨?_, ?_⟩
              · show v ∈ keysD (dictInsert st.lowlinks node (min (lowOf st node) (idxOf st s)))
                rw [hkeysB]
                exact hvdom
              · rcases hvcase with hvc | ⟨hvs, hvi⟩
                · exact Or.inl hvc
                · exact Or.inr ⟨hvs, le_trans hlowle hvi⟩
        obtain ⟨st'', hrun2, hinv2, hE2, hdone2⟩ := ih _ hpreB
        exact ⟨st'', hrun2, hinv2, hEB.comp hE2, hdone2⟩
      · rw [if_neg hstk]
        apply ih
        refine ⟨hg, hgn, hinv, hnodeg,
          fun x hx => hmem x (List.mem_cons_of_mem _ hx), hfuel, ?_⟩
        intro v hv
        rcases hpart v hv with hvm | hres
        · rcases List.mem_cons.1 hvm with rfl | hvm
          · right
            refine ⟨hs_dom, Or.inl ?_⟩
            rcases dom_stack_or_emitted hinv.wf hs_dom with h | h
            · exact absurd h hstk
            · exact h
          · exact Or.inl hvm
        · exact Or.inr hres

/-- The state built at the top of `strongconnect`: index and lowlink are
set to the counter, the counter is bumped, and the node is pushed. -/
def entryState (node : Assignment) (st : TarjanState) : TarjanState :=
  { counter := st.counter + 1
    stack := node :: st.stack
    lowlinks := dictInsert st.lowlinks node st.counter
    index := dictInsert st.index node st.counter
    result := st.result }

theorem strongconnect_succ_entry (g : DepGraph) (fuel : Nat) (node : Assignment)
    (st : TarjanState) :
    strongconnect g (fuel + 1) node st =
      (match processSuccessors g fuel node (succsOf g node) (entryState node st) with
      | none => none
      | some st2 =>
        if lowOf st2 node = idxOf st2 node then
          some { st2 with
            stack := (popUntil node st2.stack).2
            result := st2.result ++ [(popUntil node st2.stack).1] }
        else some st2) :=
  strongconnect_succ g fuel node st

theorem containsKey_eq_false {α β : Type} [DecidableEq α] {d : List (α × β)}
    {k : α} (h : k ∉ keysD d) : ¬(containsKey d k = true) :=
  fun hc => h ((containsKey_iff_mem_keys _ _).1 hc)

theorem entry_keys_low {node : Assignment} {st : TarjanState}
    (hnew : node ∉ keysD st.lowlinks) :
    keysD (entryState node st).lowlinks = keysD st.lowlinks ++ [node] :=
  keysD_dictInsert_of_not_contains (containsKey_eq_false hnew) _

theorem entry_idx_self (node : Assignment) (st : TarjanState) :
    idxOf (entryState node st) node = st.counter := by
  rw [idxOf]
  show (lookupD (dictInsert st.index node st.counter) node).getD 0 = st.counter
  rw [lookupD_dictInsert_self]
  rfl

theorem entry_low_self (node : Assignment) (st : TarjanState) :
    lowOf (entryState node st) node = st.counter := by
  rw [lowOf]
  show (lookupD (dictInsert st.lowlinks node st.counter) node).getD 0 = st.counter
  rw [lookupD_dictInsert_self]
  rfl

theorem twf_entry {g : DepGraph} {node : Assignment} {st : TarjanState}
    (hW : TWF g st) (hnodeg : node ∈ keysD g) (hnew : node ∉ keysD st.lowlinks) :
    TWF g (entryState node st) := by
  have hnewi : node ∉ keysD st.index := by
    rw [← hW.dom_eq]
    exact hnew
  have hkl : keysD (entryState node st).lowlinks = keysD st.lowlinks ++ [node] :=
    entry_keys_low hnew
  have hki : keysD (entryState node st).index = keysD st.index ++ [node] :=
    keysD_dictInsert_of_not_contains (containsKey_eq_false hnewi) _
  have hstack_node : node ∉ st.stack := fun h => hnew (hW.stack_sub node h)
  have hidx_frozen : ∀ v ∈ keysD st.lowlinks,
      idxOf (entryState node st) v = idxOf st v := by
    intro v hv
    have hvn : v ≠ node := fun h => hnew (h ▸ hv)
    rw [idxOf, idxOf]
    show (lookupD (dictInsert st.index node st.counter) v).getD 0 = _
    rw [lookupD_dictInsert_ne _ hvn]
  refine ⟨?_, ?_, ?_, ?_, ?_, ?_, ?_, ?_, ?_, hW.res_closed, hW.res_sc, hW.res_ne⟩
  · rw [hkl, hki, hW.dom_eq]
  · rw [hkl]
    refine List.Nodup.append hW.nd_dom (List.nodup_singleton _) ?_
    intro a ha hb
    rw [List.mem_singleton] at hb
    exact hnew (hb ▸ ha)
  · intro v hv
    rw [hkl] at hv
    rcases List.mem_append.1 hv with hv | hv
    · exact hW.dom_sub v hv
    · rw [List.mem_singleton] at hv
      exact hv ▸ hnodeg
  · intro v hv
    rcases List.mem_cons.1 hv with hveq | hv
    · rw [hveq, hkl]
      exact List.mem_append.2 (Or.inr (List.mem_singleton.2 rfl))
    · rw [hkl]
      exact List.mem_append.2 (Or.inl (hW.stack_sub v hv))
  · exact List.nodup_cons.2 ⟨hstack_node, hW.nd_stack⟩
  · refine List.pairwise_cons.2 ⟨?_, ?_⟩
    · intro b hb
      rw [hidx_frozen b (hW.stack_sub b hb), entry_idx_self]
      exact idxOf_lt_counter hW (hW.stack_sub b hb)
    · refine hW.stack_sorted.imp_of_mem ?_
      intro a b ha hb h
      rw [hidx_frozen a (hW.stack_sub a ha), hidx_frozen b (hW.stack_sub b hb)]
      exact h
  · intro e he
    have he2 : e ∈ dictInsert st.index node st.counter := he
    rcases mem_dictInsert he2 with heq | he3
    · show e.2 < st.counter + 1
      rw [heq]
      exact Nat.lt_succ_self _
    · show e.2 < st.counter + 1
      exact Nat.lt_succ_of_lt (hW.idx_lt e he3)
  · intro e he
    have he2 : e ∈ dictInsert st.lowlinks node st.counter := he
    rcases mem_dictInsert he2 with heq | he3
    · show e.2 < st.counter + 1
      rw [heq]
      exact Nat.lt_succ_self _
    · show e.2 < st.counter + 1
      exact Nat.lt_succ_of_lt (hW.low_lt e he3)
  · show ((node :: st.stack) ++ emitted st).Perm (keysD (entryState node st).lowlinks)
    rw [hkl, List.cons_append]
    exact ((hW.perm.cons node).trans (List.perm_append_singleton _ _).symm)

theorem extendsE_entry {node : Assignment} {st : TarjanState}
    (hnew : node ∉ keysD st.lowlinks) : ExtendsE node st (entryState node st) := by
  refine ⟨?_, ?_, ?_, ⟨[node], rfl⟩, fun y h => h, Nat.le_succ _, ?_,
    ⟨[], (List.append_nil _).symm⟩⟩
  · intro v hv
    rw [entry_keys_low hnew]
    exact List.mem_append.2 (Or.inl hv)
  · intro v hv
    have hvn : v ≠ node := fun h => hnew (h ▸ hv)
    show lookupD (dictInsert st.index node st.counter) v = _
    exact lookupD_dictInsert_ne _ hvn _
  · intro v hv hvn
    show lookupD (dictInsert st.lowlinks node st.counter) v = _
    exact lookupD_dictInsert_ne _ hvn _
  · intro v hv hvn
    rw [entry_keys_low hnew] at hv
    rcases List.mem_append.1 hv with hv | hv
    · exact absurd hv hvn
    · rw [List.mem_singleton] at hv
      rw [hv, entry_idx_self]

theorem get_q_some_lt {α : Type} {l : List α} {n : Nat} {a : α}
    (h : l.get? n = some a) : n < l.length := by
  by_contra hge
  push_neg at hge
  rw [List.get?_eq_none.2 hge] at h
  exact Option.noConfusion h

theorem emitted_get {st : TarjanState} {v : Assignment} (h : v ∈ emitted st) :
    ∃ j C, st.result.get? j = some C ∧ v ∈ C := by
  rw [emitted] at h
  obtain ⟨C, hC, hv⟩ := List.mem_flatten.1 h
  obtain ⟨j, hj⟩ := List.get?_of_mem hC
  exact ⟨j, C, hj, hv⟩

/-- Closing a component: when the successor loop is done and
`lowlinks[node] == index[node]`, popping the stack down to `node` and
emitting the popped segment yields a well-formed state satisfying the
`strongconnect` contract's popped branch. -/
theorem sc_pop_case {g : DepGraph} {node : Assignment} {st st2 st' : TarjanState}
    (hW : TWF g st) (hnew : node ∉ keysD st.lowlinks)
    (hinv2 : PSInv g node st.stack st2)
    (hdone2 : Done g st2 node)
    (hE12 : ExtendsE node st st2)
    (hcnt : st.counter < st2.counter)
    (hidx2 : idxOf st2 node = st.counter)
    (hpop : lowOf st2 node = idxOf st2 node)
    (hst' : st' =
      { st2 with
        stack := (popUntil node st2.stack).2
        result := st2.result ++ [(popUntil node st2.stack).1] }) :
    SCPost g node st st' := by
  obtain ⟨Δ2, hΔ2, hpkg2⟩ := hinv2.stack_split
  obtain ⟨habove2, hbelow2, hnΔ2, hnbase2⟩ := split_sorted_facts hinv2.wf hΔ2
  have hpopu : popUntil node st2.stack = (Δ2 ++ [node], st.stack) := by
    rw [hΔ2]
    exact popUntil_spec node Δ2 st.stack hnΔ2
  have hstack' : st'.stack = st.stack := by rw [hst', hpopu]
  have hres' : st'.result = st2.result ++ [Δ2 ++ [node]] := by rw [hst', hpopu]
  have hlow' : st'.lowlinks = st2.lowlinks := by rw [hst']
  have hidx'' : st'.index = st2.index := by rw [hst']
  have hidxf : ∀ v, idxOf st' v = idxOf st2 v := by
    intro v
    rw [hst']
    rfl
  have hlowf : ∀ v, lowOf st' v = lowOf st2 v := by
    intro v
    rw [hst']
    rfl
  have hcnt' : st'.counter = st2.counter := by rw [hst']
  have hkeys' : keysD st'.lowlinks = keysD st2.lowlinks := by rw [hst']
  have hem' : emitted st' = emitted st2 ++ (Δ2 ++ [node]) := by
    rw [emitted, hres', List.flatten_append, emitted]
    simp
  have hnodeC : node ∈ Δ2 ++ [node] :=
    List.mem_append.2 (Or.inr (List.mem_singleton.2 rfl))
  have hidx_oldlt : ∀ v ∈ st.stack, idxOf st2 v < st.counter := by
    intro v hv
    rw [hE12.idx_eq (hW.stack_sub v hv)]
    exact idxOf_lt_counter hW (hW.stack_sub v hv)
  have hidx_D2 : ∀ u ∈ Δ2, st.counter < idxOf st2 u := by
    intro u hu
    have h := habove2 u hu
    rw [hidx2] at h
    exact h
  have hD2_new : ∀ u ∈ Δ2, u ∉ keysD st.lowlinks ∧ u ≠ node := by
    intro u hu
    refine ⟨?_, fun h => hnΔ2 (h ▸ hu)⟩
    intro hmem
    have h1 := hidx_D2 u hu
    have h2 : idxOf st2 u = idxOf st u := hE12.idx_eq hmem
    have h3 := idxOf_lt_counter hW hmem
    omega
  have hstk_high : ∀ v ∈ st2.stack, st.counter ≤ idxOf st2 v → v ∈ Δ2 ++ [node] := by
    intro v hv hge
    rw [hΔ2] at hv
    rcases List.mem_append.1 hv with hv | hv
    · exact List.mem_append.2 (Or.inl hv)
    · rcases List.mem_cons.1 hv with hveq | hv
      · rw [hveq]
        exact hnodeC
      · exact absurd hge (by have := hidx_oldlt v hv; omega)
  have hCstk : ∀ w ∈ Δ2 ++ [node], w ∈ st2.stack := by
    intro w hw
    rw [hΔ2]
    rcases List.mem_append.1 hw with hw | hw
    · exact List.mem_append.2 (Or.inl hw)
    · rw [List.mem_singleton] at hw
      rw [hw]
      exact List.mem_append.2 (Or.inr (List.mem_cons_self _ _))
  have hlowC : ∀ u ∈ Δ2 ++ [node], st.counter ≤ lowOf st2 u := by
    intro u hu
    rcases List.mem_append.1 hu with hu | hu
    · have h := (hpkg2 u hu).2.1
      rw [hpop, hidx2] at h
      exact h
    · rw [List.mem_singleton] at hu
      rw [hu, hpop, hidx2]
  have hdoneC : ∀ u ∈ Δ2 ++ [node], Done g st2 u := by
    intro u hu
    rcases List.mem_append.1 hu with hu | hu
    · exact (hpkg2 u hu).1.1
    · rw [List.mem_singleton] at hu
      rw [hu]
      exact hdone2
  -- structural well-formedness of the popped state
  have hWF' : TWF g st' := by
    refine ⟨?_, ?_, ?_, ?_, ?_, ?_, ?_, ?_, ?_, ?_, ?_, ?_⟩
    · rw [hlow', hidx'']
      exact hinv2.wf.dom_eq
    · rw [hlow']
      exact hinv2.wf.nd_dom
    · rw [hlow']
      exact hinv2.wf.dom_sub
    · intro v hv
      rw [hstack'] at hv
      rw [hlow']
      refine hinv2.wf.stack_sub v ?_
      rw [hΔ2]
      exact List.mem_append.2 (Or.inr (List.mem_cons_of_mem _ hv))
    · rw [hstack']
      exact hW.nd_stack
    · rw [hstack']
      refine hW.stack_sorted.imp_of_mem ?_
      intro a b ha hb h
      rw [hidxf, hidxf, hE12.idx_eq (hW.stack_sub a ha),
        hE12.idx_eq (hW.stack_sub b hb)]
      exact h
    · intro e he
      rw [hidx''] at he
      rw [hcnt']
      exact hinv2.wf.idx_lt e he
    · intro e he
      rw [hlow'] at he
      rw [hcnt']
      exact hinv2.wf.low_lt e he
    · rw [hstack', hem', hkeys']
      have hp2 := hinv2.wf.perm
      rw [hΔ2] at hp2
      refine List.Perm.trans ?_ hp2
      rw [List.perm_iff_count]
      intro a
      simp [List.count_append, List.count_cons]
      omega
    · intro i C hC u hu v hv
      rw [hres'] at hC
      by_cases hi : i < st2.result.length
      · rw [List.get?_append hi] at hC
        obtain ⟨j, C', hjle, hj, hvC'⟩ := hinv2.wf.res_closed i C hC u hu v hv
        refine ⟨j, C', hjle, ?_, hvC'⟩
        rw [hres', List.get?_append (lt_of_le_of_lt hjle hi)]
        exact hj
      · have hile : i = st2.result.length := by
          by_contra hne
          have hgt : st2.result.length < i := by omega
          have hnone : (st2.result ++ [Δ2 ++ [node]]).get? i = none := by
            refine List.get?_eq_none.2 ?_
            rw [List.length_append, List.length_singleton]
            omega
          rw [hnone] at hC
          exact Option.noConfusion hC
        subst hile
        rw [List.get?_concat_length] at hC
        have hCeq : C = Δ2 ++ [node] := (Option.some.inj hC).symm
        rw [hCeq] at hu
        obtain ⟨hvdom, hvcase⟩ := hdoneC u hu v hv
        rcases hvcase with hvem | ⟨hvstk, hvle⟩
        · obtain ⟨j, C', hj, hvC'⟩ := emitted_get hvem
          have hjlt : j < st2.result.length := get_q_some_lt hj
          refine ⟨j, C', le_of_lt hjlt, ?_, hvC'⟩
          rw [hres', List.get?_append hjlt]
          exact hj
        · have hge : st.counter ≤ idxOf st2 v := le_trans (hlowC u hu) hvle
          refine ⟨st2.result.length, Δ2 ++ [node], le_refl _, ?_,
            hstk_high v hvstk hge⟩
          rw [hres', List.get?_concat_length]
    · intro C hC u hu v hv
      rw [hres'] at hC
      rcases List.mem_append.1 hC with hC | hC
      · exact hinv2.wf.res_sc C hC u hu v hv
      · rw [List.mem_singleton] at hC
        subst hC
        have hmid_in_C : ∀ z, StackAbove st2 node z → z ∈ Δ2 ++ [node] := by
          intro z hz
          have h2 := hz.2
          rw [hidx2] at h2
          exact hstk_high z hz.1 (le_of_lt h2)
        have hreach_down : ∀ x ∈ Δ2 ++ [node], ReachIn g (Δ2 ++ [node]) node x := by
          intro x hx
          rcases List.mem_append.1 hx with hx2 | hx2
          · rcases (hpkg2 x hx2).2.2 with heq | hpath
            · exact heq ▸ ReachIn.refl node hnodeC
            · exact midPath_reachIn hpath hnodeC
                (List.mem_append.2 (Or.inl hx2)) hmid_in_C
          · rw [List.mem_singleton] at hx2
            rw [hx2]
            exact ReachIn.refl _ hnodeC
        have hreach_up : ∀ n, ∀ x ∈ Δ2 ++ [node], idxOf st2 x < n →
            ReachIn g (Δ2 ++ [node]) x node := by
          intro n
          induction n with
          | zero => exact fun x _ h => absurd h (Nat.not_lt_zero _)
          | succ n ih =>
            intro x hx hlt
            rcases List.mem_append.1 hx with hx2 | hx2
            · obtain ⟨hdx, hlx, w, hwstk, hwidx, hwpath⟩ := (hpkg2 x hx2).1
              have hwge : st.counter ≤ idxOf st2 w := by
                rw [hwidx]
                exact hlowC x (List.mem_append.2 (Or.inl hx2))
              have hwC : w ∈ Δ2 ++ [node] := hstk_high w hwstk hwge
              have hwlt : idxOf st2 w < idxOf st2 x := by
                rw [hwidx]
                exact hlx
              have hstep : ReachIn g (Δ2 ++ [node]) x w := by
                rcases hwpath with heq | hpath
                · exact heq ▸ ReachIn.refl x (List.mem_append.2 (Or.inl hx2))
                · refine midPath_reachIn hpath
                    (List.mem_append.2 (Or.inl hx2)) hwC ?_
                  intro z hz
                  refine hstk_high z hz.1 ?_
                  have h1 := hidx_D2 x hx2
                  have h2 := hz.2
                  omega
              exact ReachIn.trans hstep (ih w hwC (by omega))
            · rw [List.mem_singleton] at hx2
              rw [hx2]
              exact ReachIn.refl _ hnodeC
        exact ReachIn.trans
          (hreach_up (idxOf st2 u + 1) u hu (Nat.lt_succ_self _))
          (hreach_down v hv)
    · intro C hC
      rw [hres'] at hC
      rcases List.mem_append.1 hC with hC | hC
      · exact hinv2.wf.res_ne C hC
      · rw [List.mem_singleton] at hC
        rw [hC]
        simp
  -- the contract
  refine ⟨hWF', ?_, ?_, ?_, ?_, Or.inl ⟨hstack', ?_, ?_⟩⟩
  · refine ⟨?_, ?_, ?_, ⟨[], ?_⟩, ?_, ?_, ?_, ?_⟩
    · intro v hv
      rw [hkeys']
      exact hE12.dom_grow v hv
    · intro v hv
      rw [hidx'']
      exact hE12.idx_frame v hv
    · intro v hv hvn
      rw [hlow']
      exact hE12.low_frame v hv hvn
    · rw [List.nil_append]
      exact hstack'
    · intro y hy
      rw [hem']
      exact List.mem_append.2 (Or.inl (hE12.emit_grow y hy))
    · rw [hcnt']
      exact le_of_lt hcnt
    · intro v hv hvn
      rw [hkeys'] at hv
      rw [hidxf]
      exact hE12.new_idx v hv hvn
    · obtain ⟨ΔR, hΔR⟩ := hE12.res_ext
      exact ⟨ΔR ++ [Δ2 ++ [node]], by rw [hres', hΔR, List.append_assoc]⟩
  · rw [hkeys']
    exact hinv2.node_dom
  · rw [hcnt']
    exact hcnt
  · rw [hidxf]
    exact hidx2
  · rw [hem']
    exact List.mem_append.2 (Or.inr hnodeC)
  · rw [hlowf, hidxf]
    exact hpop

/-- The inductive step: if `processSuccessors` meets its contract at some
fuel, `strongconnect` meets its own at one more unit of fuel. -/
theorem sc_spec_succ (fuel : Nat) (hps : PSSpec fuel) : SCSpec (fuel + 1) := by
  rintro g node st ⟨hg, hgn, hW, hnodeg, hnew, hfuel⟩
  rw [strongconnect_succ_entry]
  have hW1 : TWF g (entryState node st) := twf_entry hW hnodeg hnew
  have hE1 : ExtendsE node st (entryState node st) := extendsE_entry hnew
  have hnd1 : node ∈ keysD (entryState node st).lowlinks := by
    rw [entry_keys_low hnew]
    exact List.mem_append.2 (Or.inr (List.mem_singleton.2 rfl))
  have hinv1 : PSInv g node st.stack (entryState node st) := by
    refine ⟨hW1, hnd1, ⟨[], rfl, fun u hu => absurd hu (List.not_mem_nil u)⟩,
      ?_, Or.inl ?_⟩
    · rw [entry_low_self, entry_idx_self]
    · rw [entry_low_self, entry_idx_self]
  have hfuel1 : (keysD g).length ≤ fuel + (keysD (entryState node st).lowlinks).length := by
    rw [entry_keys_low hnew, List.length_append, List.length_singleton]
    omega
  obtain ⟨st2, hrun, hinv2, hE2, hdone2⟩ :=
    hps g node st.stack (succsOf g node) (entryState node st)
      ⟨hg, hgn, hinv1, hnodeg, fun x hx => hx, hfuel1, fun v hv => Or.inl hv⟩
  rw [hrun]
  show ∃ st',
    (if lowOf st2 node = idxOf st2 node then
      some { st2 with
        stack := (popUntil node st2.stack).2
        result := st2.result ++ [(popUntil node st2.stack).1] }
    else some st2) = some st' ∧ SCPost g node st st'
  have hE12 : ExtendsE node st st2 := hE1.comp hE2
  have hidx2 : idxOf st2 node = st.counter := by
    rw [hE2.idx_eq hnd1, entry_idx_self]
  have hcnt12 : st.counter < st2.counter :=
    lt_of_lt_of_le (Nat.lt_succ_self _) hE2.counter_mono
  by_cases hpop : lowOf st2 node = idxOf st2 node
  · rw [if_pos hpop]
    exact ⟨_, rfl, sc_pop_case hW hnew hinv2 hdone2 hE12 hcnt12 hidx2 hpop rfl⟩
  · rw [if_neg hpop]
    obtain ⟨Δ2, hΔ2, hpkg2⟩ := hinv2.stack_split
    obtain ⟨habove2, hbelow2, hnΔ2, hnbase2⟩ := split_sorted_facts hinv2.wf hΔ2
    have hD2_new : ∀ u ∈ Δ2, u ∉ keysD st.lowlinks ∧ u ≠ node := by
      intro u hu
      refine ⟨?_, fun h => hnΔ2 (h ▸ hu)⟩
      intro hmem
      have h1 := habove2 u hu
      rw [hidx2] at h1
      have h2 : idxOf st2 u = idxOf st u := hE12.idx_eq hmem
      have h3 := idxOf_lt_counter hW hmem
      omega
    have hlow_lt : lowOf st2 node < idxOf st2 node :=
      lt_of_le_of_ne hinv2.low_le hpop
    rcases hinv2.low_cases with heq | ⟨w, hwb, hwl, hwp⟩
    · exact absurd heq hpop
    refine ⟨st2, rfl, hinv2.wf, hE12, hE2.dom_grow node hnd1, hcnt12, hidx2,
      Or.inr ⟨Δ2, hΔ2, hD2_new, ⟨hdone2, hlow_lt, ?_⟩, hpkg2, ⟨w, hwb, hwl, hwp⟩⟩⟩
    refine ⟨w, ?_, hwl.symm, Or.inr hwp⟩
    rw [hΔ2]
    exact List.mem_append.2 (Or.inr (List.mem_cons_of_mem _ hwb))

/-- `strongconnect` meets its contract at every fuel. -/
theorem sc_spec : ∀ fuel, SCSpec fuel := by
  intro fuel
  induction fuel with
  | zero => exact sc_spec_zero
  | succ n ih => exact sc_spec_succ n (ps_spec_of_sc n ih)

/-! ### The dependency graph of `dependency_sort` -/

theorem buildDepGraph_aux (f : Assignment → List Assignment) (l : List Assignment) :
    ∀ g : DepGraph, (keysD g ++ l).Nodup →
    l.foldl (fun g a => dictInsert g a (f a)) g = g ++ l.map (fun a => (a, f a)) := by
  induction l with
  | nil =>
    intro g _
    simp
  | cons a l ih =>
    intro g h
    rw [List.foldl_cons]
    have hna : a ∉ keysD g := by
      intro hmem
      exact (List.nodup_append.1 h).2.2 hmem (List.mem_cons_self _ _)
    have hnone : lookupD g a = none := (lookupD_eq_none_iff g a).2 hna
    have hstep : dictInsert g a (f a) = g ++ [(a, f a)] := by
      simp [dictInsert, containsKey, hnone]
    rw [hstep, ih (g ++ [(a, f a)]) ?_]
    · simp
    · have hkeys : keysD (g ++ [(a, f a)]) = keysD g ++ [a] := by
        simp [keysD]
      rw [hkeys, List.append_assoc, List.singleton_append]
      exact h

theorem buildDepGraph_eq_pairs (l : List Assignment) (hnd : l.Nodup) :
    buildDepGraph l =
      l.map (fun a => (a, a.refs.filterMap (fun r => lookupD (assignmentsByName l) r))) := by
  have := buildDepGraph_aux
    (fun a => a.refs.filterMap (fun r => lookupD (assignmentsByName l) r)) l []
    (by simpa [keysD] using hnd)
  simpa [buildDepGraph] using this

theorem keysD_depPairs (f : Assignment → List Assignment) (l : List Assignment) :
    keysD (l.map (fun a => (a, f a))) = l := by
  simp [keysD, List.map_map]
  exact List.map_id _

theorem lookupD_map_depPairs (f : Assignment → List Assignment) {l : List Assignment}
    (hnd : l.Nodup) {a : Assignment} (ha : a ∈ l) :
    lookupD (l.map (fun x => (x, f x))) a = some (f a) := by
  induction l with
  | nil => cases ha
  | cons b l ih =>
    rw [List.map_cons]
    by_cases hba : b = a
    · rw [lookupD, if_pos hba]
      rw [hba]
    · rw [lookupD, if_neg hba]
      rcases List.mem_cons.1 ha with hab | hmem
      · exact absurd hab.symm hba
      · exact ih (List.nodup_cons.1 hnd).2 hmem

theorem keysD_buildDepGraph {l : List Assignment} (hnd : l.Nodup) :
    keysD (buildDepGraph l) = l := by
  rw [buildDepGraph_eq_pairs l hnd, keysD_depPairs]

theorem assignmentsByName_values (l0 : List Assignment) :
    ∀ (l : List Assignment) (acc : List (String × Assignment))
      (e : String × Assignment), (∀ x ∈ l, x ∈ l0) →
      e ∈ l.foldl (fun m a => dictInsert m a.name a) acc → e.2 ∈ l0 ∨ e ∈ acc := by
  intro l
  induction l with
  | nil =>
    intro acc e _ he
    exact Or.inr he
  | cons a t ih =>
    intro acc e hsub he
    rw [List.foldl_cons] at he
    rcases ih (dictInsert acc a.name a) e
        (fun x hx => hsub x (List.mem_cons_of_mem _ hx)) he with h | h
    · exact Or.inl h
    · rcases mem_dictInsert h with heq | h
      · rw [heq]
        exact Or.inl (hsub a (List.mem_cons_self _ _))
      · exact Or.inr h

theorem mem_assignmentsByName {l : List Assignment} {e : String × Assignment}
    (he : e ∈ assignmentsByName l) : e.2 ∈ l := by
  rcases assignmentsByName_values l l [] e (fun x hx => hx) he with h | h
  · exact h
  · exact absurd h (List.not_mem_nil e)

theorem buildDepGraph_closed {l : List Assignment} (hnd : l.Nodup) :
    GraphClosed (buildDepGraph l) := by
  intro e he v hv
  rw [buildDepGraph_eq_pairs l hnd] at he
  obtain ⟨a, ha, hae⟩ := List.mem_map.1 he
  rw [← hae] at hv
  obtain ⟨r, hr, hlk⟩ := List.mem_filterMap.1 hv
  have hv_l : v ∈ l := mem_assignmentsByName (lookupD_mem hlk)
  rw [keysD_buildDepGraph hnd]
  exact hv_l

/-! ### The driver loop -/

theorem tarjanLoop_nil (g : DepGraph) (fuel : Nat) (st : TarjanState) :
    tarjanLoop g fuel [] st = some st := by
  rw [tarjanLoop]

theorem tarjanLoop_cons (g : DepGraph) (fuel : Nat) (n : Assignment)
    (rest : List Assignment) (st : TarjanState) :
    tarjanLoop g fuel (n :: rest) st =
      (if containsKey st.lowlinks n then tarjanLoop g fuel rest st
       else match strongconnect g fuel n st with
            | none => none
            | some st' => tarjanLoop g fuel rest st') := by
  rw [tarjanLoop]

/-- Between top-level `strongconnect` calls the stack is empty, and each
call leaves it empty again: the driver therefore never fails and visits
every listed node. -/
theorem tarjanLoop_spec (g : DepGraph) (fuel : Nat) (hg : GraphClosed g)
    (hgn : (keysD g).Nodup) (hfuel : (keysD g).length ≤ fuel) :
    ∀ (todo : List Assignment) (st : TarjanState),
      (∀ n ∈ todo, n ∈ keysD g) → TWF g st → st.stack = [] →
      ∃ st', tarjanLoop g fuel todo st = some st' ∧ TWF g st' ∧ st'.stack = [] ∧
        (∀ v ∈ keysD st.lowlinks, v ∈ keysD st'.lowlinks) ∧
        (∃ ΔR, st'.result = st.result ++ ΔR) ∧
        (∀ n ∈ todo, n ∈ keysD st'.lowlinks) := by
  intro todo
  induction todo with
  | nil =>
    intro st _ hW hstk
    exact ⟨st, tarjanLoop_nil g fuel st, hW, hstk, fun v h => h,
      ⟨[], (List.append_nil _).symm⟩, fun n hn => absurd hn (List.not_mem_nil n)⟩
  | cons n rest ih =>
    intro st htodo hW hstk
    rw [tarjanLoop_cons]
    by_cases hvis : containsKey st.lowlinks n = true
    · rw [if_pos hvis]
      obtain ⟨st', hrun, hW', hstk', hdom, hres, hcov⟩ :=
        ih st (fun m hm => htodo m (List.mem_cons_of_mem _ hm)) hW hstk
      refine ⟨st', hrun, hW', hstk', hdom, hres, ?_⟩
      intro m hm
      rcases List.mem_cons.1 hm with hmeq | hm
      · rw [hmeq]
        exact hdom n ((containsKey_iff_mem_keys _ _).1 hvis)
      · exact hcov m hm
    · rw [if_neg hvis]
      have hnew : n ∉ keysD st.lowlinks :=
        fun h => hvis ((containsKey_iff_mem_keys _ _).2 h)
      obtain ⟨st1, hrun1, hW1, hE1, hnd1, hcnt1, hidx1, hcases⟩ :=
        sc_spec fuel g n st ⟨hg, hgn, hW, htodo n (List.mem_cons_self _ _), hnew,
          by omega⟩
      rw [hrun1]
      have hstk1 : st1.stack = [] := by
        rcases hcases with ⟨hseq, _, _⟩ | ⟨Δ, hseq, _, _, _, w, hwmem, _, _⟩
        · rw [hseq, hstk]
        · exfalso
          rw [hstk] at hwmem
          exact (List.not_mem_nil w) hwmem
      obtain ⟨st', hrun', hW', hstk', hdom', hres', hcov'⟩ :=
        ih st1 (fun m hm => htodo m (List.mem_cons_of_mem _ hm)) hW1 hstk1
      refine ⟨st', hrun', hW', hstk', ?_, ?_, ?_⟩
      · exact fun v hv => hdom' v (hE1.dom_grow v hv)
      · obtain ⟨Δa, ha⟩ := hE1.res_ext
        obtain ⟨Δb, hb⟩ := hres'
        exact ⟨Δa ++ Δb, by rw [hb, ha, List.append_assoc]⟩
      · intro m hm
        rcases List.mem_cons.1 hm with hmeq | hm
        · rw [hmeq]
          exact hdom' n hnd1
        · exact hcov' m hm

theorem twf_init (g : DepGraph) : TWF g initTarjanState := by
  refine ⟨rfl, List.nodup_nil, ?_, ?_, List.nodup_nil, List.Pairwise.nil, ?_, ?_,
    List.Perm.refl _, ?_, ?_, ?_⟩
  · intro v hv
    exact absurd hv (List.not_mem_nil v)
  · intro v hv
    exact absurd hv (List.not_mem_nil v)
  · intro e he
    exact absurd he (List.not_mem_nil e)
  · intro e he
    exact absurd he (List.not_mem_nil e)
  · intro i C hC
    rw [List.get?_eq_none.2 (by exact Nat.zero_le i)] at hC
    exact Option.noConfusion hC
  · intro C hC
    exact absurd hC (List.not_mem_nil C)
  · intro C hC
    exact absurd hC (List.not_mem_nil C)

/-- `dependency_sort` always succeeds; the result is the `result` field of
a final state that is well-formed, has an empty stack, and has visited
every graph key. -/
theorem dependency_sort_main {l : List Assignment} (hnd : l.Nodup) :
    ∃ st', tarjanLoop (buildDepGraph l) (l.length + 1) (keysD (buildDepGraph l))
        initTarjanState = some st' ∧
      TWF (buildDepGraph l) st' ∧ st'.stack = [] ∧
      (∀ n ∈ keysD (buildDepGraph l), n ∈ keysD st'.lowlinks) ∧
      dependency_sort l = some st'.result := by
  have hg := buildDepGraph_closed hnd
  have hgn : (keysD (buildDepGraph l)).Nodup := by
    rw [keysD_buildDepGraph hnd]
    exact hnd
  have hfuel : (keysD (buildDepGraph l)).length ≤ l.length + 1 := by
    rw [keysD_buildDepGraph hnd]
    omega
  obtain ⟨st', hrun, hW', hstk', _, _, hcov⟩ :=
    tarjanLoop_spec (buildDepGraph l) (l.length + 1) hg hgn hfuel
      (keysD (buildDepGraph l)) initTarjanState (fun n hn => hn) (twf_init _) rfl
  refine ⟨st', hrun, hW', hstk', hcov, ?_⟩
  rw [dependency_sort]
  show (tarjanLoop (buildDepGraph l) (l.length + 1) (keysD (buildDepGraph l))
    initTarjanState).map TarjanState.result = some st'.result
  rw [hrun]
  rfl

theorem reachIn_transGen {g : DepGraph} {S : List Assignment} {u v : Assignment}
    (h : ReachIn g S u v) : u ≠ v →
    Relation.TransGen (fun x y => y ∈ succsOf g x ∧ y ∈ S) u v := by
  induction h with
  | refl hw => exact fun hne => absurd rfl hne
  | @tail b c h1 he hc ih =>
    intro _
    by_cases hab : u = b
    · rw [hab]
      exact Relation.TransGen.single ⟨he, hc⟩
    · exact Relation.TransGen.tail (ih hab) ⟨he, hc⟩

theorem exists_ne_of_one_lt_length {C : List Assignment} (h : 1 < C.length)
    (u : Assignment) (hnd : C.Nodup) : ∃ w ∈ C, w ≠ u := by
  match C, h, hnd with
  | a :: b :: t, _, hnd =>
    by_cases hau : a = u
    · refine ⟨b, List.mem_cons_of_mem _ (List.mem_cons_self _ _), ?_⟩
      intro hbu
      exact (List.nodup_cons.1 hnd).1 (by rw [hau, ← hbu]; exact List.mem_cons_self _ _)
    · exact ⟨a, List.mem_cons_self _ _, hau⟩

/-- C3: on a duplicate-free input list (Python assignment objects are
distinct dict keys), `dependency_sort` always returns a component list —
also on self-references and cycles — whose concatenation is a
permutation of the input, without duplicates or omissions. -/
theorem dependency_sort_total (l : List Assignment) (hnd : l.Nodup) :
    ∃ res, dependency_sort l = some res ∧
      res.flatten.Perm l ∧ res.flatten.Nodup := by
  obtain ⟨st', hrun, hW', hstk', hcov, hds⟩ := dependency_sort_main hnd
  have hperm1 := hW'.perm
  rw [hstk', List.nil_append] at hperm1
  have hsub1 : ∀ v ∈ keysD st'.lowlinks, v ∈ l := by
    intro v hv
    have h := hW'.dom_sub v hv
    rw [keysD_buildDepGraph hnd] at h
    exact h
  have hsub2 : ∀ v ∈ l, v ∈ keysD st'.lowlinks := by
    intro v hv
    refine hcov v ?_
    rw [keysD_buildDepGraph hnd]
    exact hv
  have hdoml : (keysD st'.lowlinks).Perm l :=
    (hW'.nd_dom.subperm hsub1).antisymm (hnd.subperm hsub2)
  refine ⟨st'.result, hds, hperm1.trans hdoml, ?_⟩
  exact ((hperm1.trans hdoml).symm).nodup hnd

theorem dependency_sort_total_witness :
    ([⟨"A", ["B"]⟩, ⟨"B", ["A"]⟩] : List Assignment).Nodup ∧
    ∃ res, dependency_sort [⟨"A", ["B"]⟩, ⟨"B", ["A"]⟩] = some res ∧
      res.flatten.Perm [⟨"A", ["B"]⟩, ⟨"B", ["A"]⟩] ∧ res.flatten.Nodup :=
  ⟨by decide, dependency_sort_total _ (by decide)⟩

/-- C2: components come out in dependency order: anything a component's
member references — transitively, through the graph built over the
assignments — lies in the same component or in one emitted strictly
earlier, and components are never empty. -/
theorem dependency_sort_component_order (l : List Assignment) (hnd : l.Nodup) :
    ∃ res, dependency_sort l = some res ∧ (∀ C ∈ res, C ≠ []) ∧
      ∀ i C, res.get? i = some C → ∀ u ∈ C, ∀ v,
        Relation.TransGen (fun x y => y ∈ succsOf (buildDepGraph l) x) u v →
        v ∉ C → ∃ j C', j < i ∧ res.get? j = some C' ∧ v ∈ C' := by
  obtain ⟨st', hrun, hW', hstk', hcov, hds⟩ := dependency_sort_main hnd
  refine ⟨st'.result, hds, hW'.res_ne, ?_⟩
  intro i C hC u hu v htg hvC
  have hweak : ∀ x, Relation.TransGen (fun a b => b ∈ succsOf (buildDepGraph l) a) u x →
      ∃ j C', j ≤ i ∧ st'.result.get? j = some C' ∧ x ∈ C' := by
    intro x htg2
    induction htg2 with
    | single h => exact hW'.res_closed i C hC u hu _ h
    | tail h1 h2 ih =>
      obtain ⟨j, C', hji, hj, hxC'⟩ := ih
      obtain ⟨j2, C2, hj2j, hj2, hx2⟩ := hW'.res_closed j C' hj _ hxC' _ h2
      exact ⟨j2, C2, le_trans hj2j hji, hj2, hx2⟩
  obtain ⟨j, C', hji, hj, hvC'⟩ := hweak v htg
  refine ⟨j, C', ?_, hj, hvC'⟩
  rcases lt_or_eq_of_le hji with h | h
  · exact h
  · exfalso
    rw [h, hC] at hj
    have hCC : C' = C := (Option.some.inj hj).symm
    rw [hCC] at hvC'
    exact hvC hvC'

theorem dependency_sort_component_order_witness :
    ([⟨"A", ["B"]⟩, ⟨"B", []⟩] : List Assignment).Nodup ∧
    ∃ res, dependency_sort [⟨"A", ["B"]⟩, ⟨"B", []⟩] = some res ∧
      (∀ C ∈ res, C ≠ []) ∧
      ∀ i C, res.get? i = some C → ∀ u ∈ C, ∀ v,
        Relation.TransGen
          (fun x y => y ∈ succsOf (buildDepGraph [⟨"A", ["B"]⟩, ⟨"B", []⟩]) x) u v →
        v ∉ C → ∃ j C', j < i ∧ res.get? j = some C' ∧ v ∈ C' :=
  ⟨by decide, dependency_sort_component_order _ (by decide)⟩

/-- C5: every component with more than one member is a genuine reference
cycle among exactly its members: each member reaches every other member
through vertices of the component, and each member lies on a nonempty
reference cycle that never leaves the component. -/
theorem dependency_sort_cycle_components (l : List Assignment) (hnd : l.Nodup) :
    ∃ res, dependency_sort l = some res ∧
      ∀ C ∈ res, 1 < C.length →
        (∀ u ∈ C, ∀ v ∈ C, ReachIn (buildDepGraph l) C u v) ∧
        (∀ u ∈ C, Relation.TransGen
          (fun x y => y ∈ succsOf (buildDepGraph l) x ∧ y ∈ C) u u) := by
  obtain ⟨st', hrun, hW', hstk', hcov, hds⟩ := dependency_sort_main hnd
  have hperm1 := hW'.perm
  rw [hstk', List.nil_append] at hperm1
  have hsub1 : ∀ v ∈ keysD st'.lowlinks, v ∈ l := by
    intro v hv
    have h := hW'.dom_sub v hv
    rw [keysD_buildDepGraph hnd] at h
    exact h
  have hsub2 : ∀ v ∈ l, v ∈ keysD st'.lowlinks := by
    intro v hv
    refine hcov v ?_
    rw [keysD_buildDepGraph hnd]
    exact hv
  have hdoml : (keysD st'.lowlinks).Perm l :=
    (hW'.nd_dom.subperm hsub1).antisymm (hnd.subperm hsub2)
  have hflatnd : st'.result.flatten.Nodup := ((hperm1.trans hdoml).symm).nodup hnd
  refine ⟨st'.result, hds, ?_⟩
  intro C hC hlen
  refine ⟨fun u hu v hv => hW'.res_sc C hC u hu v hv, ?_⟩
  intro u hu
  have hCnd : C.Nodup := (List.sublist_flatten_of_mem hC).nodup hflatnd
  obtain ⟨w, hw, hwu⟩ := exists_ne_of_one_lt_length hlen u hCnd
  have h1 : ReachIn (buildDepGraph l) C u w := hW'.res_sc C hC u hu w hw
  have h2 : ReachIn (buildDepGraph l) C w u := hW'.res_sc C hC w hw u hu
  exact Relation.TransGen.trans (reachIn_transGen h1 (Ne.symm hwu))
    (reachIn_transGen h2 hwu)

theorem dependency_sort_cycle_components_witness :
    ([⟨"P", ["Q"]⟩, ⟨"Q", ["P"]⟩] : List Assignment).Nodup ∧
    ∃ res, dependency_sort [⟨"P", ["Q"]⟩, ⟨"Q", ["P"]⟩] = some res ∧
      ∀ C ∈ res, 1 < C.length →
        (∀ u ∈ C, ∀ v ∈ C, ReachIn (buildDepGraph [⟨"P", ["Q"]⟩, ⟨"Q", ["P"]⟩]) C u v) ∧
        (∀ u ∈ C, Relation.TransGen
          (fun x y => y ∈ succsOf (buildDepGraph [⟨"P", ["Q"]⟩, ⟨"Q", ["P"]⟩]) x ∧ y ∈ C)
          u u) :=
  ⟨by decide, dependency_sort_cycle_components _ (by decide)⟩

end Asn1ate
